import Mathlib

/-!
# dingdong-grabber: the iOS session store (`pkg/user/ios/config.go`)

A shallow embedding of the session store that is filled from a Charles
capture file, and theorems about it.

* Go strings are byte sequences: `GoString` is a list of byte values.
* Go maps are finite key/value tables with distinct keys (`AList`); the
  iteration order of a `range` loop is the order of the entries, and every
  property below is stated through `lookup` and `keys`, which do not depend
  on that order.
* Maps are reference values in Go.  The maps that live longer than one call
  are cells of an explicit heap, and a map variable is a `MapRef`: `none` is
  the nil map, `some a` is the cell at address `a`.
* A run-time panic (assignment to an entry of a nil map, index out of range)
  is the outer `none` of an `Option` result.
* `json.Unmarshal` is a parameter of `Decode`; `url.ParseQuery` is transcribed
  from Go's `net/url` (Go 1.17 and later).
* The mutex is not modelled: every method runs as one atomic step.
-/

/-! ## Strings -/

/-- A Go `string`: a sequence of bytes (each element stands for one byte). -/
abbrev GoString := List Nat

/-- UTF-8 encoding of one code point. -/
def utf8 (c : Nat) : List Nat :=
  if c < 0x80 then [c]
  else if c < 0x800 then [0xC0 + c / 0x40, 0x80 + c % 0x40]
  else if c < 0x10000 then [0xE0 + c / 0x1000, 0x80 + c / 0x40 % 0x40, 0x80 + c % 0x40]
  else [0xF0 + c / 0x40000, 0x80 + c / 0x1000 % 0x40, 0x80 + c / 0x40 % 0x40, 0x80 + c % 0x40]

/-- The bytes of a Go string literal. -/
def str (s : String) : GoString := s.data.flatMap (fun c => utf8 c.toNat)

/-! ## Maps and the heap -/

/-- A Go `map[string]string` value. -/
abbrev GoMap := AList (fun _ : GoString => GoString)

/-- Go's `m[k]` as an expression: the zero value `""` when `k` is absent. -/
def GoMap.index (m : GoMap) (k : GoString) : GoString := (m.lookup k).getD []

/-- A composite literal `map[string]string{k1: v1, ...}`. -/
def mapLit (l : List (GoString × GoString)) : GoMap :=
  l.foldl (fun m kv => m.insert kv.1 kv.2) ∅

/-- A reference to a map: `none` is the nil map, `some a` the heap cell `a`. -/
abbrev MapRef := Option Nat

/-- The heap of `map[string]string` cells; an address is an index. -/
abbrev Heap := List GoMap

/-- The contents seen through a reference; a nil map reads as the empty map. -/
def Heap.read (h : Heap) : MapRef → GoMap
  | none => ∅
  | some a => h.getD a ∅

/-- Allocation of a new cell holding `m` (`make` or a composite literal). -/
def Heap.alloc (h : Heap) (m : GoMap) : Heap × MapRef := (h ++ [m], some h.length)

/-- The assignment `r[k] = v`; it panics on a nil map. -/
def Heap.store (h : Heap) (r : MapRef) (k v : GoString) : Option Heap :=
  match r with
  | none => none
  | some a => if a < h.length then some (h.set a ((h.getD a ∅).insert k v)) else none

/-- Any change of the contents of the cell behind `r` to `m`. -/
def Heap.overwrite (h : Heap) (r : MapRef) (m : GoMap) : Heap :=
  match r with
  | none => h
  | some a => h.set a m

/-- A reference that is nil or points into the heap. -/
def Heap.valid (h : Heap) (r : MapRef) : Prop := ∀ a, r = some a → a < h.length

/-- A reference that points into the heap (a map that was made). -/
@[reducible] def Heap.allocated (h : Heap) (r : MapRef) : Prop := ∃ a, r = some a ∧ a < h.length

instance Heap.decidableValid (h : Heap) (r : MapRef) : Decidable (h.valid r) :=
  match r with
  | none => isTrue (fun _ e => Option.noConfusion e)
  | some a =>
    if ha : a < h.length then isTrue (fun _ e => Option.some.inj e ▸ ha)
    else isFalse (fun hv => ha (hv a rfl))

instance Heap.decidableAllocated (h : Heap) (r : MapRef) : Decidable (h.allocated r) :=
  match r with
  | none => isFalse (fun ⟨_, e, _⟩ => Option.noConfusion e)
  | some a =>
    if ha : a < h.length then isTrue ⟨a, rfl, ha⟩
    else isFalse (fun ⟨_, e, hb⟩ => ha (Option.some.inj e ▸ hb))

/-! ## Errors -/

/-- The error values that reach the caller of `Decode`. -/
inductive GoError where
  /-- An error reported by `json.Unmarshal`. -/
  | json (msg : GoString)
  /-- The value `errors.New("无效文件")`. -/
  | invalidFile
  /-- A `url.EscapeError` carrying the offending escape. -/
  | escape (s : GoString)
  /-- The error "invalid semicolon separator in query". -/
  | semicolon
  deriving DecidableEq, Repr

/-! ## The capture records (package `charles`) -/

namespace charles

/-- Modelled from the spec: the declaration of `charles.HeaderEntry` is not in
the sources; a header entry is a name/value pair. -/
structure HeaderEntry where
  Name : GoString
  Value : GoString
  deriving DecidableEq, Repr

/-- Modelled from the spec: the header block of a request, of which only the
`Headers` entry list is read. -/
structure Header where
  Headers : List HeaderEntry
  deriving DecidableEq, Repr

/-- Modelled from the spec: the request of a capture record, of which only the
header block is read. -/
structure Request where
  Header : Header
  deriving DecidableEq, Repr

/-- Modelled from the spec: the declaration of `charles.Session` is not in the
sources; of a capture record only `Request.Header.Headers` and `Query` are
read. -/
structure Session where
  Request : Request
  Query : GoString
  deriving DecidableEq, Repr

end charles

/-! ## Package `strings` -/

namespace strings

/-- The call `strings.Cut(s, sep)` for a one-byte separator: the text before
the first `sep`, the text after it, and whether `sep` was found. -/
def Cut (s : GoString) (sep : Nat) : GoString × GoString × Bool :=
  match s with
  | [] => ([], [], false)
  | c :: rest =>
    if c = sep then ([], rest, true)
    else ((c :: (Cut rest sep).1), (Cut rest sep).2.1, (Cut rest sep).2.2)

/-- The call `strings.Contains(s, sep)` for a one-byte `sep`. -/
def Contains (s : GoString) (sep : Nat) : Bool := decide (sep ∈ s)

end strings

/-! ## Package `net/url` -/

namespace url

/-- A `url.Values`: `map[string][]string`. -/
abbrev Values := AList (fun _ : GoString => List GoString)

/-- Whether the byte is an ASCII hexadecimal digit. -/
def ishex (c : Nat) : Bool :=
  if 48 ≤ c ∧ c ≤ 57 then true
  else if 97 ≤ c ∧ c ≤ 102 then true
  else if 65 ≤ c ∧ c ≤ 70 then true
  else false

/-- The value of a hexadecimal digit. -/
def unhex (c : Nat) : Nat :=
  if 48 ≤ c ∧ c ≤ 57 then c - 48
  else if 97 ≤ c ∧ c ≤ 102 then c - 97 + 10
  else if 65 ≤ c ∧ c ≤ 70 then c - 65 + 10
  else 0

/-- First loop of `unescape`: `some e` is the `EscapeError` for the leftmost
`%` that is not followed by two hexadecimal digits (at most three bytes). -/
def unescapeScan : GoString → Option GoString
  | [] => none
  | c :: rest =>
    if c = 37 then
      match rest with
      | a :: b :: rest2 => if ishex a && ishex b then unescapeScan rest2 else some [c, a, b]
      | _ => some (c :: rest)
    else unescapeScan rest

/-- Second loop of `unescape` in query-component mode: `%XY` becomes the byte
`XY`, `+` becomes a space.  It runs only after a successful scan. -/
def unescapeBuild : GoString → GoString
  | [] => []
  | c :: rest =>
    if c = 37 then
      match rest with
      | a :: b :: rest2 => (((unhex a <<< 4) % 256) ||| unhex b) :: unescapeBuild rest2
      | _ => []
    else if c = 43 then 32 :: unescapeBuild rest
    else c :: unescapeBuild rest

/-- The function `url.QueryUnescape`. -/
def QueryUnescape (s : GoString) : Except GoError GoString :=
  match unescapeScan s with
  | some e => .error (.escape e)
  | none => .ok (unescapeBuild s)

/-- The loop of `parseQuery`; `fuel` bounds the number of iterations. -/
def parseQuery : Nat → Values → Option GoError → GoString → Values × Option GoError
  | 0, m, err, _ => (m, err)
  | fuel + 1, m, err, query =>
    if query = [] then (m, err)
    else
      let key := (strings.Cut query 38).1
      let query := (strings.Cut query 38).2.1
      if strings.Contains key 59 then parseQuery fuel m (some .semicolon) query
      else if key = [] then parseQuery fuel m err query
      else
        match QueryUnescape (strings.Cut key 61).1 with
        | .error err1 => parseQuery fuel m (if err = none then some err1 else err) query
        | .ok k =>
          match QueryUnescape (strings.Cut key 61).2.1 with
          | .error err1 => parseQuery fuel m (if err = none then some err1 else err) query
          | .ok value => parseQuery fuel (m.insert k ((m.lookup k).getD [] ++ [value])) err query

/-- The function `url.ParseQuery`: every iteration removes at least one byte
of the query, so its length is enough fuel. -/
def ParseQuery (query : GoString) : Values × Option GoError :=
  parseQuery query.length ∅ none query

end url

/-! ## The session store -/

/-- The two maps of a session, held by reference. -/
structure session where
  headers : MapRef
  params : MapRef
  deriving DecidableEq, Repr

/-- The store `ios` together with the heap its maps live in. -/
structure ios where
  heap : Heap
  s : session

/-- The store's header map. -/
def ios.headerMap (i : ios) : GoMap := i.heap.read i.s.headers

/-- The store's params map. -/
def ios.paramMap (i : ios) : GoMap := i.heap.read i.s.params

/-- The function `NewDefaultSession`: two fresh empty maps, allocated on a heap
that already holds the cells `heap`. -/
def NewDefaultSession (heap : Heap) : Heap × session :=
  (((heap.alloc ∅).1.alloc ∅).1,
    { headers := (heap.alloc ∅).2, params := ((heap.alloc ∅).1.alloc ∅).2 })

/-- The function `NewIosDevice`. -/
def NewIosDevice (heap : Heap) : ios :=
  { heap := (NewDefaultSession heap).1, s := (NewDefaultSession heap).2 }

/-- The store invariant: the header map is nil or allocated, the params map is
allocated, and the two are different cells. -/
def ios.wf (i : ios) : Prop :=
  i.heap.valid i.s.headers ∧ i.heap.allocated i.s.params ∧ i.s.headers ≠ i.s.params

instance ios.decidableWf (i : ios) : Decidable i.wf :=
  inferInstanceAs (Decidable (_ ∧ _ ∧ _))

namespace ios

/-- The method `Headers`: a copy of the header map in a fresh cell. -/
def Headers (i : ios) : ios × MapRef :=
  let cp : GoMap := (i.heap.read i.s.headers).entries.foldl (fun cp kv => cp.insert kv.1 kv.2) ∅
  ({ i with heap := (i.heap.alloc cp).1 }, (i.heap.alloc cp).2)

/-- The method `SetHeaders`: the store keeps the reference it is given. -/
def SetHeaders (i : ios) (header : MapRef) : ios :=
  { i with s := { i.s with headers := header } }

/-- The method `QueryParams`: a copy of the params map in a fresh cell. -/
def QueryParams (i : ios) : ios × MapRef :=
  let cp : GoMap := (i.heap.read i.s.params).entries.foldl (fun cp kv => cp.insert kv.1 kv.2) ∅
  ({ i with heap := (i.heap.alloc cp).1 }, (i.heap.alloc cp).2)

/-- The method `SetParams`: every entry of `params` is assigned into the
store's params map. -/
def SetParams (i : ios) (params : MapRef) : Option ios :=
  ((i.heap.read params).entries.foldlM
      (fun (h : Heap) kv => h.store i.s.params kv.1 kv.2) i.heap).map
    (fun h => { i with heap := h })

end ios

/-- The function `getParamValue`. -/
def getParamValue (param : GoString) (params : url.Values) : GoString :=
  match params.lookup param with
  | none => str ""
  | some v => if v.length = 0 then str "" else v.headD []

namespace ios

/-- The method `decodeParams`. -/
def decodeParams (i : ios) (queryStr : GoString) : Option (ios × Option GoError) :=
  match url.ParseQuery queryStr with
  | (_, some err) => some (i, some err)
  | (values, none) =>
    let params : GoMap := mapLit [
      (str "api_version", getParamValue (str "api_version") values),
      (str "app_client_id", getParamValue (str "app_client_id") values),
      (str "app_type", getParamValue (str "app_type") values),
      (str "buildVersion", getParamValue (str "buildVersion") values),
      (str "channel", getParamValue (str "channel") values),
      (str "city_number", getParamValue (str "city_number") values),
      (str "countryCode", getParamValue (str "countryCode") values),
      (str "device_id", getParamValue (str "device_id") values),
      (str "device_model", getParamValue (str "device_model") values),
      (str "device_name", getParamValue (str "device_name") values),
      (str "device_token", getParamValue (str "device_token") values),
      (str "idfa", getParamValue (str "idfa") values),
      (str "ip", getParamValue (str "ip") values),
      (str "languageCode", getParamValue (str "languageCode") values),
      (str "latitude", getParamValue (str "latitude") values),
      (str "localeIdentifier", getParamValue (str "localeIdentifier") values),
      (str "longitude", getParamValue (str "longitude") values),
      (str "os_version", getParamValue (str "os_version") values),
      (str "seqid", getParamValue (str "seqid") values),
      (str "station_id", getParamValue (str "station_id") values),
      (str "time", getParamValue (str "time") values),
      (str "uid", getParamValue (str "uid") values)]
    -- for k, v := range values { params[k] = v[0] }
    match values.entries.foldlM
        (fun (p : GoMap) kv => match kv.2 with
          | [] => none
          | v0 :: _ => some (p.insert kv.1 v0)) params with
    | none => none
    | some params =>
      (SetParams { i with heap := (i.heap.alloc params).1 } (i.heap.alloc params).2).map
        (fun i => (i, none))

/-- The method `decodeHeader`. -/
def decodeHeader (i : ios) (headers : List charles.HeaderEntry) : ios × Option GoError :=
  if headers.length = 0 then (i, some .invalidFile)
  else
    let header : GoMap := headers.foldl (fun m h => m.insert h.Name h.Value) ∅
    let header : GoMap := mapLit [
      (str "accept", header.index (str "accept")),
      (str "accept-encoding", header.index (str "accept-encoding")),
      (str "accept-language", header.index (str "accept-language")),
      (str "content-type", str "application/x-www-form-urlencoded"),
      (str "cookie", header.index (str "cookie")),
      (str "x-tingyun-id", header.index (str "x-tingyun-id")),
      (str "x-tingyun", header.index (str "x-tingyun")),
      (str "ddmc-api-version", header.index (str "ddmc-api-version")),
      (str "ddmc-app-client-id", header.index (str "ddmc-app-client-id")),
      (str "ddmc-build-version", header.index (str "ddmc-build-version")),
      (str "ddmc-channel", header.index (str "ddmc-channel")),
      (str "ddmc-city-number", header.index (str "ddmc-city-number")),
      (str "ddmc-country-code", header.index (str "ddmc-country-code")),
      (str "ddmc-device-id", header.index (str "ddmc-device-id")),
      (str "ddmc-device-model", header.index (str "ddmc-device-model")),
      (str "ddmc-device-name", header.index (str "ddmc-device-name")),
      (str "ddmc-device-token", header.index (str "ddmc-device-token")),
      (str "ddmc-idfa", header.index (str "ddmc-idfa")),
      (str "ddmc-ip", header.index (str "ddmc-ip")),
      (str "ddmc-language-code", header.index (str "ddmc-language-code")),
      (str "ddmc-latitude", header.index (str "ddmc-latitude")),
      (str "ddmc-locale-identifier", header.index (str "ddmc-locale-identifier")),
      (str "ddmc-longitude", header.index (str "ddmc-longitude")),
      (str "ddmc-os-version", header.index (str "ddmc-os-version")),
      (str "ddmc-station-id", header.index (str "ddmc-station-id")),
      (str "ddmc-uid", header.index (str "ddmc-uid")),
      (str "time", header.index (str "time")),
      (str "user-agent", header.index (str "user-agent"))]
    (SetHeaders { i with heap := (i.heap.alloc header).1 } (i.heap.alloc header).2, none)

/-- The method `Decode`; `unmarshal` stands for `json.Unmarshal` into a
`[]charles.Session`. -/
def Decode (unmarshal : GoString → Except GoError (List charles.Session)) (i : ios)
    (data : GoString) : Option (ios × Option GoError) :=
  match unmarshal data with
  | .error err => some (i, some err)
  | .ok s =>
    if s.length = 0 then some (i, some .invalidFile)
    else
      match s.head? with
      | none => none
      | some s0 =>
        match i.decodeHeader s0.Request.Header.Headers with
        | (i, some err) => some (i, some err)
        | (i, none) => i.decodeParams s0.Query

end ios

/-! ## Vocabulary of the statements -/

/-- The value carried by the last element of `l` whose key is `k`, or `init`
when there is none. -/
def lastVal {α β : Type} (kf : α → GoString) (vf : α → β) (init : Option β) (l : List α)
    (k : GoString) : Option β :=
  l.foldl (fun r x => if kf x = k then some (vf x) else r) init

/-- The header allow-list: the keys of the map literal of `decodeHeader`. -/
def headerNames : List GoString := [
  str "accept", str "accept-encoding", str "accept-language", str "content-type",
  str "cookie", str "x-tingyun-id", str "x-tingyun", str "ddmc-api-version",
  str "ddmc-app-client-id", str "ddmc-build-version", str "ddmc-channel",
  str "ddmc-city-number", str "ddmc-country-code", str "ddmc-device-id",
  str "ddmc-device-model", str "ddmc-device-name", str "ddmc-device-token", str "ddmc-idfa",
  str "ddmc-ip", str "ddmc-language-code", str "ddmc-latitude", str "ddmc-locale-identifier",
  str "ddmc-longitude", str "ddmc-os-version", str "ddmc-station-id", str "ddmc-uid",
  str "time", str "user-agent"]

/-- The params allow-list: the keys of the map literal of `decodeParams`. -/
def paramNames : List GoString := [
  str "api_version", str "app_client_id", str "app_type", str "buildVersion", str "channel",
  str "city_number", str "countryCode", str "device_id", str "device_model",
  str "device_name", str "device_token", str "idfa", str "ip", str "languageCode",
  str "latitude", str "localeIdentifier", str "longitude", str "os_version", str "seqid",
  str "station_id", str "time", str "uid"]

/-- The store after the caller has changed the map behind `r` (a map that a
method returned) into `m`. -/
def ios.callerEdit (i : ios) (r : MapRef) (m : GoMap) : ios :=
  { i with heap := i.heap.overwrite r m }

/-- A query string in which every `%` is followed by two hexadecimal digits. -/
def wellEscaped (q : GoString) : Bool :=
  q.tails.all (fun t => t.head? != some 37 || (url.ishex (t.getD 1 0) && url.ishex (t.getD 2 0)))

/-- A syntactically valid query string: it has no `;`, and every `%` in it is
followed by two hexadecimal digits. -/
def validQuery (q : GoString) : Bool := !decide (59 ∈ q) && wellEscaped q

/-- The pieces of a query string between its `&` separators. -/
def pieces : GoString → List GoString
  | [] => [[]]
  | c :: rest =>
    if c = 38 then [] :: pieces rest
    else (c :: (pieces rest).headD []) :: (pieces rest).tail

/-- The key and the value that a piece `key=value` of a query string stands
for, both percent-decoded; an empty piece stands for nothing. -/
def pairOf (p : GoString) : Option (GoString × GoString) :=
  if p = [] then none
  else some (url.unescapeBuild (strings.Cut p 61).1, url.unescapeBuild (strings.Cut p 61).2.1)

/-- The key/value pairs that occur in a query string, in their order. -/
def queryPairs (q : GoString) : List (GoString × GoString) := (pieces q).filterMap pairOf

/-- The value of the first occurrence of the key `k` in the query string. -/
def firstValue (q : GoString) (k : GoString) : Option GoString :=
  ((queryPairs q).find? (fun p => decide (p.1 = k))).map Prod.snd

/-- The body of the loop of `parseQuery`, as a function of the piece `key`
that the iteration cuts off the query. -/
def url.parseStep (s : url.Values × Option GoError) (key : GoString) :
    url.Values × Option GoError :=
  if strings.Contains key 59 then (s.1, some .semicolon)
  else if key = [] then s
  else
    match url.QueryUnescape (strings.Cut key 61).1 with
    | .error err1 => (s.1, if s.2 = none then some err1 else s.2)
    | .ok k =>
      match url.QueryUnescape (strings.Cut key 61).2.1 with
      | .error err1 => (s.1, if s.2 = none then some err1 else s.2)
      | .ok value => (s.1.insert k ((s.1.lookup k).getD [] ++ [value]), s.2)

/-- The values of all occurrences of the key `k` among the pairs, in order. -/
def valuesOf (pairs : List (GoString × GoString)) (k : GoString) : List GoString :=
  (pairs.filter (fun p => decide (p.1 = k))).map Prod.snd

/-- The effect of one pair on a `url.Values`: `m[key] = append(m[key], value)`. -/
def url.addPair (m : url.Values) (kv : GoString × GoString) : url.Values :=
  m.insert kv.1 ((m.lookup kv.1).getD [] ++ [kv.2])

/-! ## Sample inputs -/

/-- A capture record: a repeated `cookie` header, a `Cookie` header in another
case, a `content-type`, a header outside the allow-list, and a query. -/
def sampleRecord : charles.Session :=
  { Request := { Header := { Headers := [
      ⟨str "cookie", str "a"⟩, ⟨str "Cookie", str "B"⟩, ⟨str "cookie", str "c"⟩,
      ⟨str "content-type", str "application/json"⟩, ⟨str "x-other", str "1"⟩] } }
    Query := str "uid=42&foo=bar" }

/-- A capture record without header entries. -/
def sampleBareRecord : charles.Session :=
  { Request := { Header := { Headers := [] } }, Query := str "uid=42" }

/-- A decoder for three inputs: the empty array, an array of one record
without headers, and everything else read as the array of `sampleRecord`. -/
def sampleUnmarshal (data : GoString) : Except GoError (List charles.Session) :=
  if data = str "[]" then .ok []
  else if data = str "[\x7b\x7d]" then .ok [sampleBareRecord]
  else .ok [sampleRecord, sampleBareRecord]

/-- A store whose header map holds `cookie=c` and whose params map holds
`uid=1` and `x=y`; the third cell is a map of the caller with `uid=2` and
`foo=bar`. -/
def sampleStore : ios :=
  { heap := [mapLit [(str "cookie", str "c")],
      mapLit [(str "uid", str "1"), (str "x", str "y")],
      mapLit [(str "uid", str "2"), (str "foo", str "bar")]]
    s := { headers := some 0, params := some 1 } }

/-- A decoder for two inputs that agree in their first record: `one` is the
array of `sampleRecord` alone, and everything else the array of `sampleRecord`
followed by `sampleBareRecord`. -/
def sampleUnmarshalTails (data : GoString) : Except GoError (List charles.Session) :=
  if data = str "one" then .ok [sampleRecord]
  else .ok [sampleRecord, sampleBareRecord]

/-- A capture record with a header entry and a query string whose second pair
has a broken escape. -/
def sampleBadQueryRecord : charles.Session :=
  { Request := { Header := { Headers := [⟨str "cookie", str "d"⟩] } }
    Query := str "uid=9&a=%zz" }

/-- A decoder that reads every input as the array of `sampleBadQueryRecord`. -/
def sampleUnmarshalBad (_ : GoString) : Except GoError (List charles.Session) :=
  .ok [sampleBadQueryRecord]

/-! ## The two passes of `decodeParams` -/

/-- The map literal of `decodeParams`: every allow-listed name, seeded with
the result of `getParamValue`. -/
def seedParams (values : url.Values) : GoMap :=
  mapLit [
    (str "api_version", getParamValue (str "api_version") values),
    (str "app_client_id", getParamValue (str "app_client_id") values),
    (str "app_type", getParamValue (str "app_type") values),
    (str "buildVersion", getParamValue (str "buildVersion") values),
    (str "channel", getParamValue (str "channel") values),
    (str "city_number", getParamValue (str "city_number") values),
    (str "countryCode", getParamValue (str "countryCode") values),
    (str "device_id", getParamValue (str "device_id") values),
    (str "device_model", getParamValue (str "device_model") values),
    (str "device_name", getParamValue (str "device_name") values),
    (str "device_token", getParamValue (str "device_token") values),
    (str "idfa", getParamValue (str "idfa") values),
    (str "ip", getParamValue (str "ip") values),
    (str "languageCode", getParamValue (str "languageCode") values),
    (str "latitude", getParamValue (str "latitude") values),
    (str "localeIdentifier", getParamValue (str "localeIdentifier") values),
    (str "longitude", getParamValue (str "longitude") values),
    (str "os_version", getParamValue (str "os_version") values),
    (str "seqid", getParamValue (str "seqid") values),
    (str "station_id", getParamValue (str "station_id") values),
    (str "time", getParamValue (str "time") values),
    (str "uid", getParamValue (str "uid") values)]

/-- The loop `for k, v := range values { params[k] = v[0] }` of
`decodeParams`, run on the map `params`. -/
def overwritePass (values : url.Values) (params : GoMap) : Option GoMap :=
  values.entries.foldlM
    (fun (p : GoMap) kv => match kv.2 with
      | [] => none
      | v0 :: _ => some (p.insert kv.1 v0)) params

/-! ## Lemmas on maps -/

theorem lookup_insert_if {β : Type} (m : AList (fun _ : GoString => β)) (k k' : GoString)
    (v : β) : (m.insert k' v).lookup k = if k' = k then some v else m.lookup k := by
  by_cases h : k' = k
  · subst h; simp
  · have h' : k ≠ k' := fun e => h e.symm
    simp [h, AList.lookup_insert_ne h']

theorem lookup_foldl_insert {α β : Type} (kf : α → GoString) (vf : α → β) (l : List α)
    (m0 : AList (fun _ : GoString => β)) (k : GoString) :
    (l.foldl (fun m x => m.insert (kf x) (vf x)) m0).lookup k
      = lastVal kf vf (m0.lookup k) l k := by
  induction l generalizing m0 with
  | nil => rfl
  | cons x xs ih =>
    simp only [List.foldl_cons, lastVal]
    rw [ih, lookup_insert_if]
    rfl

theorem lastVal_append {α β : Type} (kf : α → GoString) (vf : α → β) (init : Option β)
    (l1 l2 : List α) (k : GoString) :
    lastVal kf vf init (l1 ++ l2) k = lastVal kf vf (lastVal kf vf init l1 k) l2 k := by
  simp [lastVal, List.foldl_append]

theorem lastVal_of_not_mem {α β : Type} (kf : α → GoString) (vf : α → β) (init : Option β)
    (l : List α) (k : GoString) (h : ∀ x ∈ l, kf x ≠ k) : lastVal kf vf init l k = init := by
  induction l generalizing init with
  | nil => rfl
  | cons x xs ih =>
    have hx : kf x ≠ k := h x (List.mem_cons_self _ _)
    have := ih init (fun y hy => h y (List.mem_cons_of_mem _ hy))
    simpa [lastVal, hx] using this

theorem lastVal_last {α β : Type} (kf : α → GoString) (vf : α → β) (init : Option β)
    (pre post : List α) (x : α) (k : GoString) (hx : kf x = k)
    (h : ∀ y ∈ post, kf y ≠ k) : lastVal kf vf init (pre ++ x :: post) k = some (vf x) := by
  rw [lastVal_append]
  have : lastVal kf vf (lastVal kf vf init pre k) (x :: post) k
      = lastVal kf vf (some (vf x)) post k := by
    simp [lastVal, hx]
  rw [this, lastVal_of_not_mem kf vf _ post k h]

theorem lastVal_isSome {α β : Type} (kf : α → GoString) (vf : α → β) (l : List α)
    (k : GoString) : (lastVal kf vf none l k).isSome ↔ ∃ x ∈ l, kf x = k := by
  induction l using List.reverseRecOn with
  | nil => simp [lastVal]
  | append_singleton xs x ih =>
    rw [lastVal_append]
    by_cases hx : kf x = k
    · simp [lastVal, hx]
      exact ⟨x, Or.inr rfl, hx⟩
    · have : lastVal kf vf (lastVal kf vf none xs k) [x] k = lastVal kf vf none xs k := by
        simp [lastVal, hx]
      rw [this, ih]
      constructor
      · rintro ⟨y, hy, e⟩; exact ⟨y, by simp [hy], e⟩
      · rintro ⟨y, hy, e⟩
        rcases List.mem_append.1 hy with h1 | h1
        · exact ⟨y, h1, e⟩
        · simp at h1; subst h1; exact absurd e hx

/-- A `range` loop that assigns every entry of a map into another map, seen
through `lookup`. -/
theorem lastVal_entries {β : Type} (m : AList (fun _ : GoString => β)) (init : Option β)
    (k : GoString) :
    lastVal Sigma.fst Sigma.snd init m.entries k = (m.lookup k).orElse (fun _ => init) := by
  cases hl : m.lookup k with
  | none =>
    have hk : k ∉ m := AList.lookup_eq_none.1 hl
    rw [lastVal_of_not_mem]
    · rfl
    · intro x hx e
      apply hk
      rw [AList.mem_keys, AList.keys, List.keys]
      exact List.mem_map.2 ⟨x, hx, e⟩
  | some v =>
    have hmem : (Sigma.mk k v : Sigma fun _ : GoString => β) ∈ m.entries :=
      AList.mem_lookup_iff.1 hl
    obtain ⟨pre, post, hsplit⟩ := List.append_of_mem hmem
    have hnd : (m.entries.map Sigma.fst).Nodup := m.keys_nodup
    rw [hsplit] at hnd ⊢
    rw [lastVal_last Sigma.fst Sigma.snd init pre post ⟨k, v⟩ k rfl]
    · rfl
    · intro y hy e
      simp only [List.map_append, List.map_cons] at hnd
      have h2 := (List.nodup_append.1 hnd).2.1
      have h3 := (List.nodup_cons.1 h2).1
      exact h3 (List.mem_map.2 ⟨y, hy, e⟩)

theorem lookup_copy (m : GoMap) (k : GoString) :
    (m.entries.foldl (fun (cp : GoMap) kv => cp.insert kv.1 kv.2) ∅).lookup k = m.lookup k := by
  have h := @lookup_foldl_insert (Sigma fun _ : GoString => GoString) GoString
    Sigma.fst Sigma.snd m.entries ∅ k
  rw [lastVal_entries] at h
  rw [show (m.entries.foldl (fun (cp : GoMap) kv => cp.insert kv.1 kv.2) ∅).lookup k
      = (m.lookup k).orElse (fun _ => (∅ : GoMap).lookup k) from h]
  cases m.lookup k <;> rfl

theorem mem_keys_iff_lookup {β : Type} (m : AList (fun _ : GoString => β)) (k : GoString) :
    k ∈ m.keys ↔ (m.lookup k).isSome := by
  rw [AList.lookup_isSome, AList.mem_keys]

theorem lookup_mapLit (names : List GoString) (f : GoString → GoString) (hnd : names.Nodup)
    (k : GoString) :
    (mapLit (names.map (fun n => (n, f n)))).lookup k
      = if k ∈ names then some (f k) else none := by
  unfold mapLit
  rw [lookup_foldl_insert Prod.fst Prod.snd]
  by_cases hk : k ∈ names
  · obtain ⟨pre, post, hsplit⟩ := List.append_of_mem hk
    subst hsplit
    have hpost : k ∉ post := by
      have h2 := (List.nodup_append.1 hnd).2.1
      exact (List.nodup_cons.1 h2).1
    rw [if_pos hk, List.map_append, List.map_cons, lastVal_last Prod.fst Prod.snd _ _ _ (k, f k) k rfl]
    intro y hy e
    obtain ⟨n, hn, rfl⟩ := List.mem_map.1 hy
    exact hpost (e ▸ hn)
  · rw [if_neg hk, lastVal_of_not_mem]
    · rfl
    · intro y hy e
      obtain ⟨n, hn, rfl⟩ := List.mem_map.1 hy
      exact hk (e ▸ hn)

/-! ## Lemmas on the heap -/

theorem Heap.read_alloc_new (h : Heap) (m : GoMap) : (h.alloc m).1.read (h.alloc m).2 = m := by
  simp [Heap.alloc, Heap.read, List.getD_eq_getElem?_getD]

theorem Heap.read_alloc_old (h : Heap) (m : GoMap) (r : MapRef) (hr : h.valid r) :
    (h.alloc m).1.read r = h.read r := by
  cases r with
  | none => rfl
  | some a =>
    have ha : a < h.length := hr a rfl
    simp [Heap.alloc, Heap.read, List.getD_eq_getElem?_getD, List.getElem?_append_left ha]

theorem Heap.valid_alloc (h : Heap) (m : GoMap) (r : MapRef) (hr : h.valid r) :
    (h.alloc m).1.valid r := by
  intro a ha
  have := hr a ha
  simp [Heap.alloc]; omega

theorem Heap.read_set_same (h : Heap) (a : Nat) (m : GoMap) (ha : a < h.length) :
    Heap.read (h.set a m) (some a) = m := by
  simp [Heap.read, List.getD_eq_getElem?_getD, ha]

theorem Heap.read_set_ne (h : Heap) (a : Nat) (m : GoMap) (r : MapRef) (hr : r ≠ some a) :
    Heap.read (h.set a m) r = h.read r := by
  cases r with
  | none => rfl
  | some b =>
    have hb : a ≠ b := fun e => hr (by rw [e])
    simp [Heap.read, List.getD_eq_getElem?_getD, List.getElem?_set_ne hb]

/-- The assignments of a `range` loop into an allocated map all succeed, and
together they replace the cell by the map with the entries inserted. -/
theorem Heap.foldlM_store (l : List (Sigma fun _ : GoString => GoString)) (h : Heap) (a : Nat)
    (ha : a < h.length) :
    l.foldlM (fun (h : Heap) kv => h.store (some a) kv.1 kv.2) h
      = some (h.set a (l.foldl (fun (m : GoMap) kv => m.insert kv.1 kv.2) (h.getD a ∅))) := by
  induction l generalizing h with
  | nil =>
    simp only [List.foldlM_nil, List.foldl_nil]
    have : h.set a (h.getD a ∅) = h := by
      apply List.ext_getElem (by simp)
      intro n h1 h2
      by_cases e : a = n
      · subst e; simp [List.getD_eq_getElem?_getD, ha]
      · simp [List.getElem_set_ne e]
    rw [this]; rfl
  | cons x xs ih =>
    have hs : Heap.store h (some a) x.1 x.2
        = some (h.set a ((h.getD a ∅).insert x.1 x.2)) := by
      simp [Heap.store, ha]
    have hlen : a < (h.set a ((h.getD a ∅).insert x.1 x.2)).length := by simpa using ha
    have := ih (h.set a ((h.getD a ∅).insert x.1 x.2)) hlen
    rw [List.foldlM_cons, hs, List.foldl_cons]
    simp only [Option.bind_eq_bind, Option.some_bind]
    rw [this]
    simp [List.getD_eq_getElem?_getD, ha]

/-! ## The setters and getters -/

theorem headerNames_nodup : headerNames.Nodup := by decide

theorem paramNames_nodup : paramNames.Nodup := by decide

theorem headerNames_length : headerNames.length = 28 := rfl

theorem paramNames_length : paramNames.length = 22 := rfl

theorem ios.SetParams_eq (i : ios) (m : MapRef) (a : Nat) (hp : i.s.params = some a)
    (ha : a < i.heap.length) :
    i.SetParams m = some { i with heap := (List.set i.heap a ((i.heap.read m).entries.foldl
      (fun (p : GoMap) kv => p.insert kv.1 kv.2) i.paramMap)) } := by
  unfold ios.SetParams ios.paramMap
  rw [hp, Heap.foldlM_store _ _ _ ha]
  rfl

theorem ios.SetParams_lookup (i j : ios) (m : MapRef) (h : i.SetParams m = some j) (hw : i.wf)
    (k : GoString) :
    j.paramMap.lookup k = ((i.heap.read m).lookup k).orElse (fun _ => i.paramMap.lookup k) := by
  obtain ⟨-, ⟨a, hp, ha⟩, -⟩ := hw
  rw [ios.SetParams_eq i m a hp ha] at h
  injection h with h
  subst h
  simp only [ios.paramMap, hp, Heap.read_set_same _ _ _ ha]
  have h2 := @lookup_foldl_insert (Sigma fun _ : GoString => GoString) GoString
    Sigma.fst Sigma.snd (Heap.read i.heap m).entries (Heap.read i.heap (some a)) k
  rw [lastVal_entries] at h2
  exact h2

theorem ios.SetParams_frame (i j : ios) (m : MapRef) (h : i.SetParams m = some j) (hw : i.wf) :
    j.s = i.s ∧ j.heap.length = i.heap.length ∧
      ∀ r : MapRef, r ≠ i.s.params → j.heap.read r = i.heap.read r := by
  obtain ⟨-, ⟨a, hp, ha⟩, -⟩ := hw
  rw [ios.SetParams_eq i m a hp ha] at h
  injection h with h
  subst h
  refine ⟨rfl, by simp, ?_⟩
  intro r hr
  rw [hp] at hr
  exact Heap.read_set_ne _ _ _ _ hr

theorem NewIosDevice_wf (heap : Heap) : (NewIosDevice heap).wf := by
  refine ⟨?_, ⟨heap.length + 1, ?_, ?_⟩, ?_⟩
  · intro a ha
    simp only [NewIosDevice, NewDefaultSession, Heap.alloc] at ha
    injection ha with ha
    simp [NewIosDevice, NewDefaultSession, Heap.alloc]; omega
  · simp [NewIosDevice, NewDefaultSession, Heap.alloc]
  · simp [NewIosDevice, NewDefaultSession, Heap.alloc]
  · simp [NewIosDevice, NewDefaultSession, Heap.alloc]

theorem NewIosDevice_maps (heap : Heap) :
    (NewIosDevice heap).headerMap = ∅ ∧ (NewIosDevice heap).paramMap = ∅ := by
  constructor
  · have h1 := Heap.read_alloc_new heap ∅
    have h2 := Heap.read_alloc_old (heap.alloc ∅).1 ∅ (heap.alloc ∅).2
      (by intro a ha; simp only [Heap.alloc] at ha; injection ha with ha; simp [Heap.alloc]; omega)
    rw [h1] at h2
    exact h2
  · have := Heap.read_alloc_new (heap.alloc ∅).1 ∅
    simpa [NewIosDevice, NewDefaultSession, ios.paramMap] using this

theorem ios.wf_valid_params (i : ios) (hw : i.wf) : i.heap.valid i.s.params := by
  obtain ⟨-, ⟨a, hp, ha⟩, -⟩ := hw
  intro b hb
  rw [hp] at hb
  injection hb with hb
  omega

theorem ios.Headers_returned (i : ios) (k : GoString) :
    (i.Headers.1.heap.read i.Headers.2).lookup k = i.headerMap.lookup k := by
  simp only [ios.Headers, Heap.read_alloc_new]
  exact lookup_copy _ k

theorem ios.QueryParams_returned (i : ios) (k : GoString) :
    (i.QueryParams.1.heap.read i.QueryParams.2).lookup k = i.paramMap.lookup k := by
  simp only [ios.QueryParams, Heap.read_alloc_new]
  exact lookup_copy _ k

/-- After an allocation the store's own maps are what they were, also when
the new cell is changed afterwards. -/
theorem ios.alloc_frame (i : ios) (cp m : GoMap) (hw : i.wf) :
    (ios.callerEdit { i with heap := (i.heap.alloc cp).1 } (i.heap.alloc cp).2 m).headerMap
        = i.headerMap ∧
    (ios.callerEdit { i with heap := (i.heap.alloc cp).1 } (i.heap.alloc cp).2 m).paramMap
        = i.paramMap ∧
    (ios.callerEdit { i with heap := (i.heap.alloc cp).1 } (i.heap.alloc cp).2 m).wf := by
  have hh : i.heap.valid i.s.headers := hw.1
  have hp : i.heap.valid i.s.params := i.wf_valid_params hw
  have fresh : ∀ r : MapRef, i.heap.valid r → r ≠ some i.heap.length := by
    intro r hr e
    have := hr _ e
    omega
  refine ⟨?_, ?_, ?_, ?_, ?_⟩
  · simp only [ios.callerEdit, ios.headerMap, Heap.overwrite, Heap.alloc]
    rw [Heap.read_set_ne _ _ _ _ (fresh _ hh)]
    exact Heap.read_alloc_old _ cp _ hh
  · simp only [ios.callerEdit, ios.paramMap, Heap.overwrite, Heap.alloc]
    rw [Heap.read_set_ne _ _ _ _ (fresh _ hp)]
    exact Heap.read_alloc_old _ cp _ hp
  · intro a ha
    have := hh a ha
    simp [ios.callerEdit, Heap.overwrite, Heap.alloc]; omega
  · obtain ⟨-, ⟨a, hpa, ha⟩, -⟩ := hw
    exact ⟨a, hpa, by simp [ios.callerEdit, Heap.overwrite, Heap.alloc]; omega⟩
  · exact hw.2.2

theorem ios.callerEdit_self (i : ios) (r : MapRef) : i.callerEdit r (i.heap.read r) = i := by
  cases r with
  | none => rfl
  | some a =>
    simp only [ios.callerEdit, Heap.overwrite, Heap.read]
    have : List.set i.heap a (i.heap.getD a ∅) = i.heap := by
      apply List.ext_getElem (by simp)
      intro n h1 h2
      by_cases e : a = n
      · subst e
        have h3 : a < i.heap.length := by simpa using h1
        simp [List.getD_eq_getElem?_getD, h3]
      · simp [List.getElem_set_ne e]
    rw [this]

theorem ios.alloc_frame0 (i : ios) (cp : GoMap) (hw : i.wf) :
    ios.headerMap { i with heap := (i.heap.alloc cp).1 } = i.headerMap ∧
    ios.paramMap { i with heap := (i.heap.alloc cp).1 } = i.paramMap ∧
    ios.wf { i with heap := (i.heap.alloc cp).1 } := by
  have h := ios.alloc_frame i cp cp hw
  have e := ios.callerEdit_self { i with heap := (i.heap.alloc cp).1 } (i.heap.alloc cp).2
  rw [show Heap.read ({ i with heap := (i.heap.alloc cp).1 } : ios).heap (i.heap.alloc cp).2 = cp
    from Heap.read_alloc_new _ _] at e
  rw [e] at h
  exact h

/-- C8: after `SetHeaders(m)` the map returned by `Headers()` has exactly the
entries of `m` (nothing of the previous header map survives unless it is in
`m`), and the params map is unchanged. -/
theorem SetHeaders_replaces_wholesale (i : ios) (m : MapRef) :
    (∀ k, ((i.SetHeaders m).Headers.1.heap.read (i.SetHeaders m).Headers.2).lookup k
        = (i.heap.read m).lookup k) ∧
    (∀ k, k ∈ ((i.SetHeaders m).Headers.1.heap.read (i.SetHeaders m).Headers.2).keys
        ↔ k ∈ (i.heap.read m).keys) ∧
    (i.SetHeaders m).paramMap = i.paramMap := by
  have h1 : ∀ k, ((i.SetHeaders m).Headers.1.heap.read (i.SetHeaders m).Headers.2).lookup k
      = (i.heap.read m).lookup k := fun k => ios.Headers_returned (i.SetHeaders m) k
  refine ⟨h1, ?_, rfl⟩
  intro k
  rw [mem_keys_iff_lookup, mem_keys_iff_lookup, h1]

/-- C9: after `SetParams(m)` the map returned by `QueryParams()` maps every key
of `m` to its value in `m` and every other key to what the params map held
before (so it has no further keys), and the header map is unchanged. -/
theorem SetParams_merges (i : ios) (m : MapRef) (hw : i.wf) :
    ∃ j, i.SetParams m = some j ∧
      (∀ k v, (i.heap.read m).lookup k = some v →
        (j.QueryParams.1.heap.read j.QueryParams.2).lookup k = some v) ∧
      (∀ k, k ∉ (i.heap.read m).keys →
        (j.QueryParams.1.heap.read j.QueryParams.2).lookup k = i.paramMap.lookup k) ∧
      (∀ k, k ∈ (j.QueryParams.1.heap.read j.QueryParams.2).keys
        ↔ k ∈ (i.heap.read m).keys ∨ k ∈ i.paramMap.keys) ∧
      j.headerMap = i.headerMap := by
  obtain ⟨a, hp, ha⟩ := hw.2.1
  refine ⟨_, ios.SetParams_eq i m a hp ha, ?_⟩
  have hj := ios.SetParams_eq i m a hp ha
  have hl := fun k => ios.SetParams_lookup i _ m hj hw k
  have hf := ios.SetParams_frame i _ m hj hw
  refine ⟨?_, ?_, ?_, ?_⟩
  · intro k v hk
    rw [ios.QueryParams_returned, hl, hk]; rfl
  · intro k hk
    rw [mem_keys_iff_lookup] at hk
    rw [ios.QueryParams_returned, hl]
    cases hm : (i.heap.read m).lookup k with
    | none => rfl
    | some v => simp [hm] at hk
  · intro k
    rw [mem_keys_iff_lookup, mem_keys_iff_lookup, mem_keys_iff_lookup,
      ios.QueryParams_returned, hl]
    cases (i.heap.read m).lookup k <;> simp
  · unfold ios.headerMap
    rw [hf.1]
    exact hf.2.2 _ hw.2.2

/-- The witness of C9: the store holds `uid=1`, `x=y` and receives the map
`uid=2`, `foo=bar`; afterwards `QueryParams()` gives `uid=2`, `foo=bar`, `x=y`. -/
theorem SetParams_merges_witness :
    sampleStore.wf ∧
    ∃ j, sampleStore.SetParams (some 2) = some j ∧
      (j.QueryParams.1.heap.read j.QueryParams.2).lookup (str "uid") = some (str "2") ∧
      (j.QueryParams.1.heap.read j.QueryParams.2).lookup (str "foo") = some (str "bar") ∧
      (j.QueryParams.1.heap.read j.QueryParams.2).lookup (str "x") = some (str "y") ∧
      (j.QueryParams.1.heap.read j.QueryParams.2).lookup (str "cookie") = none ∧
      j.headerMap.lookup (str "cookie") = some (str "c") := by
  obtain ⟨j, hj, h1, h2, -, h4⟩ := SetParams_merges sampleStore (some 2) (by decide)
  refine ⟨by decide, j, hj, h1 _ _ (by decide), h1 _ _ (by decide), ?_, ?_, ?_⟩
  · rw [h2 (str "x") (by decide)]; decide
  · rw [h2 (str "cookie") (by decide)]; decide
  · rw [h4]; decide

/-- C10: `Headers()` and `QueryParams()` return a map with exactly the entries
of the store's header map and params map, in a cell of its own; the call leaves
the store's maps as they were, and whatever the caller then does to the
returned map, the store's maps and the result of the next `Headers()` or
`QueryParams()` stay the same. -/
theorem getters_return_copies (i : ios) (hw : i.wf) :
    (∀ k, (i.Headers.1.heap.read i.Headers.2).lookup k = i.headerMap.lookup k) ∧
    (∀ k, (i.QueryParams.1.heap.read i.QueryParams.2).lookup k = i.paramMap.lookup k) ∧
    (i.Headers.1.s = i.s ∧ i.Headers.1.headerMap = i.headerMap ∧
      i.Headers.1.paramMap = i.paramMap) ∧
    (i.QueryParams.1.s = i.s ∧ i.QueryParams.1.headerMap = i.headerMap ∧
      i.QueryParams.1.paramMap = i.paramMap) ∧
    (∀ (m : GoMap) k,
      (((i.Headers.1.callerEdit i.Headers.2 m).Headers.1.heap.read
          (i.Headers.1.callerEdit i.Headers.2 m).Headers.2).lookup k = i.headerMap.lookup k) ∧
      (((i.Headers.1.callerEdit i.Headers.2 m).QueryParams.1.heap.read
          (i.Headers.1.callerEdit i.Headers.2 m).QueryParams.2).lookup k
        = i.paramMap.lookup k)) ∧
    (∀ (m : GoMap) k,
      (((i.QueryParams.1.callerEdit i.QueryParams.2 m).Headers.1.heap.read
          (i.QueryParams.1.callerEdit i.QueryParams.2 m).Headers.2).lookup k
        = i.headerMap.lookup k) ∧
      (((i.QueryParams.1.callerEdit i.QueryParams.2 m).QueryParams.1.heap.read
          (i.QueryParams.1.callerEdit i.QueryParams.2 m).QueryParams.2).lookup k
        = i.paramMap.lookup k)) := by
  have e1 := fun cp => ios.alloc_frame0 i cp hw
  have e2 := fun cp m => ios.alloc_frame i cp m hw
  refine ⟨ios.Headers_returned i, ios.QueryParams_returned i, ⟨rfl, (e1 _).1, (e1 _).2.1⟩,
    ⟨rfl, (e1 _).1, (e1 _).2.1⟩, ?_, ?_⟩
  · intro m k
    rw [ios.Headers_returned, ios.QueryParams_returned]
    exact ⟨congrArg _ (e2 _ m).1, congrArg _ (e2 _ m).2.1⟩
  · intro m k
    rw [ios.Headers_returned, ios.QueryParams_returned]
    exact ⟨congrArg _ (e2 _ m).1, congrArg _ (e2 _ m).2.1⟩

/-- The witness of C10: the caller empties or overwrites the map that
`Headers()` returned for `sampleStore`; the next `Headers()` still gives
`cookie=c` and the next `QueryParams()` still gives `uid=1`. -/
theorem getters_return_copies_witness :
    sampleStore.wf ∧
    ∀ m : GoMap,
      ((sampleStore.Headers.1.callerEdit sampleStore.Headers.2 m).Headers.1.heap.read
          (sampleStore.Headers.1.callerEdit sampleStore.Headers.2 m).Headers.2).lookup
            (str "cookie") = some (str "c") ∧
      ((sampleStore.Headers.1.callerEdit sampleStore.Headers.2 m).QueryParams.1.heap.read
          (sampleStore.Headers.1.callerEdit sampleStore.Headers.2 m).QueryParams.2).lookup
            (str "uid") = some (str "1") := by
  refine ⟨by decide, fun m => ?_⟩
  have h := (getters_return_copies sampleStore (by decide)).2.2.2.2.1 m
  refine ⟨((h (str "cookie")).1).trans (by decide), ((h (str "uid")).2).trans (by decide)⟩

/-! ## `decodeHeader` -/

/-- On a non-empty entry list `decodeHeader` stores the allow-list projection
of the map built out of the entries, in a cell of its own. -/
theorem ios.decodeHeader_eq (i : ios) (hs : List charles.HeaderEntry) (h : hs ≠ []) :
    i.decodeHeader hs
      = (SetHeaders { i with heap := (i.heap.alloc (mapLit (headerNames.map (fun n =>
          (n, if n = str "content-type" then str "application/x-www-form-urlencoded"
            else GoMap.index (hs.foldl (fun m h => m.insert h.Name h.Value) ∅) n))))).1 }
          (i.heap.alloc (mapLit (headerNames.map (fun n =>
          (n, if n = str "content-type" then str "application/x-www-form-urlencoded"
            else GoMap.index (hs.foldl (fun m h => m.insert h.Name h.Value) ∅) n))))).2,
        none) := by
  have hl : ¬ hs.length = 0 := by
    intro e; exact h (List.length_eq_zero.1 e)
  unfold ios.decodeHeader
  rw [if_neg hl]
  rfl

theorem ios.decodeHeader_lookup (i : ios) (hs : List charles.HeaderEntry) (h : hs ≠ [])
    (k : GoString) :
    (i.decodeHeader hs).1.headerMap.lookup k
      = if k ∈ headerNames then
          some (if k = str "content-type" then str "application/x-www-form-urlencoded"
            else (lastVal charles.HeaderEntry.Name charles.HeaderEntry.Value none hs k).getD [])
        else none := by
  rw [ios.decodeHeader_eq i hs h]
  simp only [ios.headerMap, ios.SetHeaders, Heap.read_alloc_new]
  rw [lookup_mapLit _ _ headerNames_nodup]
  unfold GoMap.index
  rw [lookup_foldl_insert charles.HeaderEntry.Name charles.HeaderEntry.Value]
  rfl

/-- C2: for every non-empty header entry list, whatever the source gives for
`content-type`, `decodeHeader` succeeds and leaves a header map that maps
`content-type` to exactly `application/x-www-form-urlencoded`. -/
theorem decodeHeader_forces_content_type (i : ios) (hs : List charles.HeaderEntry)
    (h : hs ≠ []) :
    (i.decodeHeader hs).2 = none ∧
    (i.decodeHeader hs).1.headerMap.lookup (str "content-type")
      = some (str "application/x-www-form-urlencoded") := by
  refine ⟨by rw [ios.decodeHeader_eq i hs h], ?_⟩
  rw [ios.decodeHeader_lookup i hs h, if_pos (by decide), if_pos rfl]

/-- The witness of C2: the source says `content-type: application/json`. -/
theorem decodeHeader_forces_content_type_witness :
    [(⟨str "content-type", str "application/json"⟩ : charles.HeaderEntry)] ≠ [] ∧
    ((NewIosDevice []).decodeHeader [⟨str "content-type", str "application/json"⟩]).2 = none ∧
    ((NewIosDevice []).decodeHeader
        [⟨str "content-type", str "application/json"⟩]).1.headerMap.lookup (str "content-type")
      = some (str "application/x-www-form-urlencoded") :=
  ⟨by simp, decodeHeader_forces_content_type _ _ (by simp)⟩

/-! ## `url.ParseQuery` -/

theorem pieces_eq_cut (q : GoString) :
    pieces q = (strings.Cut q 38).1 ::
      (if (strings.Cut q 38).2.2 then pieces (strings.Cut q 38).2.1 else []) := by
  induction q with
  | nil => rfl
  | cons c rest ih =>
    by_cases hc : c = 38
    · simp [pieces, strings.Cut, hc]
    · rw [pieces, if_neg hc, ih]
      simp [strings.Cut, hc]

theorem strings.Cut_length (q : GoString) (sep : Nat) (h : q ≠ []) :
    (strings.Cut q sep).2.1.length < q.length := by
  induction q with
  | nil => exact absurd rfl h
  | cons c rest ih =>
    by_cases hc : c = sep
    · simp [strings.Cut, hc]
    · by_cases hr : rest = []
      · subst hr; simp [strings.Cut, hc]
      · have := ih hr
        simp only [strings.Cut, if_neg hc, List.length_cons]
        omega

theorem strings.Cut_not_found (q : GoString) (sep : Nat) (h : (strings.Cut q sep).2.2 = false) :
    (strings.Cut q sep).2.1 = [] := by
  induction q with
  | nil => rfl
  | cons c rest ih =>
    by_cases hc : c = sep
    · simp [strings.Cut, hc] at h
    · simp only [strings.Cut, if_neg hc] at h ⊢
      exact ih h

theorem url.parseStep_nil (s : url.Values × Option GoError) : url.parseStep s [] = s := by
  simp [url.parseStep, strings.Contains]

theorem url.parseQuery_succ (fuel : Nat) (m : url.Values) (err : Option GoError)
    (q : GoString) (h : q ≠ []) :
    url.parseQuery (fuel + 1) m err q
      = url.parseQuery fuel (url.parseStep (m, err) (strings.Cut q 38).1).1
          (url.parseStep (m, err) (strings.Cut q 38).1).2 (strings.Cut q 38).2.1 := by
  rw [url.parseQuery, if_neg h]
  simp only [url.parseStep]
  by_cases h1 : strings.Contains (strings.Cut q 38).1 59 = true
  · rw [if_pos h1, if_pos h1]
  · rw [if_neg h1, if_neg h1]
    by_cases h2 : (strings.Cut q 38).1 = []
    · rw [if_pos h2, if_pos h2]
    · rw [if_neg h2, if_neg h2]
      cases url.QueryUnescape (strings.Cut (strings.Cut q 38).1 61).1 with
      | error e => rfl
      | ok k =>
        cases url.QueryUnescape (strings.Cut (strings.Cut q 38).1 61).2.1 with
        | error e => rfl
        | ok v => rfl

/-- The loop of `parseQuery` with enough fuel runs its body once on every
piece of the query, from left to right. -/
theorem url.parseQuery_eq_foldl (fuel : Nat) (s : url.Values × Option GoError) (q : GoString)
    (h : q.length ≤ fuel) :
    url.parseQuery fuel s.1 s.2 q = (pieces q).foldl url.parseStep s := by
  induction fuel generalizing s q with
  | zero =>
    have hq : q = [] := List.length_eq_zero.1 (Nat.le_zero.1 h)
    subst hq
    simp [url.parseQuery, pieces, url.parseStep_nil]
  | succ n ih =>
    by_cases hq : q = []
    · subst hq
      simp [url.parseQuery, pieces, url.parseStep_nil]
    · rw [url.parseQuery_succ n s.1 s.2 q hq, pieces_eq_cut q, List.foldl_cons]
      have hlen := strings.Cut_length q 38 hq
      rw [ih _ _ (by omega)]
      cases hf : (strings.Cut q 38).2.2 with
      | true => simp
      | false =>
        rw [strings.Cut_not_found q 38 hf]
        simp [pieces, url.parseStep_nil]

theorem url.ParseQuery_eq_foldl (q : GoString) :
    url.ParseQuery q = (pieces q).foldl url.parseStep (∅, none) :=
  url.parseQuery_eq_foldl q.length (∅, none) q (Nat.le_refl _)

theorem wellEscaped_nil : wellEscaped [] = true := by decide

theorem wellEscaped_cons (c : Nat) (r : GoString) :
    wellEscaped (c :: r)
      = ((c != 37 || (url.ishex (r.getD 0 0) && url.ishex (r.getD 1 0))) && wellEscaped r) := by
  simp only [wellEscaped, List.tails, List.all_cons, List.head?_cons, List.getD_cons_succ]
  by_cases hc : c = 37
  · subst hc; rfl
  · have h1 : (some c != some 37) = true := by
      rw [bne_iff_ne]; intro e; exact hc (Option.some.inj e)
    have h2 : (c != 37) = true := by
      rw [bne_iff_ne]; exact hc
    rw [h1, h2]

theorem url.ishex_ne (c : Nat) (h : url.ishex c = true) : c ≠ 37 ∧ c ≠ 38 ∧ c ≠ 61 := by
  refine ⟨?_, ?_, ?_⟩ <;> (rintro rfl; revert h; decide)

theorem url.unescapeScan_none_iff_aux (n : Nat) :
    ∀ s : GoString, s.length ≤ n → (url.unescapeScan s = none ↔ wellEscaped s = true) := by
  induction n with
  | zero =>
    intro s hs
    have : s = [] := List.length_eq_zero.1 (Nat.le_zero.1 hs)
    subst this
    simp [url.unescapeScan, wellEscaped_nil]
  | succ n ih =>
    intro s hs
    match s, hs with
    | [], _ => simp [url.unescapeScan, wellEscaped_nil]
    | c :: rest, hs =>
      have hrest : rest.length ≤ n := by simpa using hs
      by_cases hc : c = 37
      · subst hc
        match rest, hrest with
        | [], _ => simp [url.unescapeScan, wellEscaped_cons, url.ishex]
        | [a], _ => simp [url.unescapeScan, wellEscaped_cons, url.ishex]
        | a :: b :: r2, hrest =>
          have hr2 : r2.length ≤ n := by
            simp only [List.length_cons] at hrest; omega
          by_cases hab : (url.ishex a && url.ishex b) = true
          · have ha : url.ishex a = true := by
              rw [Bool.and_eq_true] at hab; exact hab.1
            have hb : url.ishex b = true := by
              rw [Bool.and_eq_true] at hab; exact hab.2
            have ha37 := (url.ishex_ne a ha).1
            have hb37 := (url.ishex_ne b hb).1
            rw [url.unescapeScan]
            simp only [if_true, hab]
            rw [ih r2 hr2, wellEscaped_cons, wellEscaped_cons, wellEscaped_cons]
            simp [ha, hb, ha37, hb37]
          · rw [url.unescapeScan]
            simp only [if_true, hab]
            rw [wellEscaped_cons]
            simp only [List.getD_cons_zero, List.getD_cons_succ]
            simp at hab ⊢
            intro h1 h2
            exact absurd h2 (by simpa using hab h1)
      · have e : url.unescapeScan (c :: rest) = url.unescapeScan rest := by
          rw [url.unescapeScan.eq_def]
          simp only [if_neg hc]
        rw [e, wellEscaped_cons, ih rest hrest]
        simp [hc]

theorem url.unescapeScan_none_iff (s : GoString) :
    url.unescapeScan s = none ↔ wellEscaped s = true :=
  url.unescapeScan_none_iff_aux s.length s (Nat.le_refl _)

theorem strings.Cut_getD (s : GoString) (sep : Nat) (hs : url.ishex sep = false) :
    (url.ishex (((strings.Cut s sep).1).getD 0 0) && url.ishex (((strings.Cut s sep).1).getD 1 0))
      = (url.ishex (s.getD 0 0) && url.ishex (s.getD 1 0)) := by
  have h0 : url.ishex 0 = false := by decide
  match s with
  | [] => rfl
  | [a] =>
    by_cases ha : a = sep
    · subst ha; simp [strings.Cut, hs, h0]
    · simp [strings.Cut, ha]
  | a :: b :: r =>
    by_cases ha : a = sep
    · subst ha; simp [strings.Cut, hs, h0]
    · by_cases hb : b = sep
      · subst hb; simp [strings.Cut, ha, hs, h0]
      · simp [strings.Cut, ha, hb]

theorem strings.Cut_wellEscaped (s : GoString) (sep : Nat) (hs : url.ishex sep = false)
    (h37 : sep ≠ 37) :
    wellEscaped s = (wellEscaped (strings.Cut s sep).1 && wellEscaped (strings.Cut s sep).2.1) := by
  induction s with
  | nil => rfl
  | cons c rest ih =>
    by_cases hc : c = sep
    · subst hc
      simp [strings.Cut, wellEscaped_cons, wellEscaped_nil, h37]
    · simp only [strings.Cut, if_neg hc, wellEscaped_cons]
      rw [ih, strings.Cut_getD rest sep hs, Bool.and_assoc]

theorem strings.Cut_mem (s : GoString) (sep x : Nat) (hx : x ≠ sep) :
    x ∈ s ↔ x ∈ (strings.Cut s sep).1 ∨ x ∈ (strings.Cut s sep).2.1 := by
  induction s with
  | nil => simp [strings.Cut]
  | cons c rest ih =>
    by_cases hc : c = sep
    · subst hc
      simp [strings.Cut, hx]
    · simp only [strings.Cut, if_neg hc, List.mem_cons, ih]
      tauto

theorem strings.Cut_validQuery (s : GoString) (sep : Nat) (hs : url.ishex sep = false)
    (h37 : sep ≠ 37) (h59 : sep ≠ 59) :
    validQuery s = (validQuery (strings.Cut s sep).1 && validQuery (strings.Cut s sep).2.1) := by
  unfold validQuery
  rw [strings.Cut_wellEscaped s sep hs h37]
  have hm := strings.Cut_mem s sep 59 (fun e => h59 e.symm)
  by_cases h1 : 59 ∈ (strings.Cut s sep).1 <;> by_cases h2 : 59 ∈ (strings.Cut s sep).2.1 <;>
    simp [hm, h1, h2, Bool.and_assoc, Bool.and_left_comm]

theorem validQuery_nil : validQuery [] = true := by decide

/-- A query string is valid exactly when each of its pieces is. -/
theorem validQuery_pieces_aux (n : Nat) :
    ∀ q : GoString, q.length ≤ n → validQuery q = (pieces q).all validQuery := by
  induction n with
  | zero =>
    intro q hq
    have : q = [] := List.length_eq_zero.1 (Nat.le_zero.1 hq)
    subst this
    decide
  | succ n ih =>
    intro q hq
    by_cases hnil : q = []
    · subst hnil; decide
    · have hlen := strings.Cut_length q 38 hnil
      rw [strings.Cut_validQuery q 38 (by decide) (by decide) (by decide), pieces_eq_cut q,
        List.all_cons]
      cases hf : (strings.Cut q 38).2.2 with
      | true =>
        simp only [if_true]
        rw [← ih _ (by omega)]
      | false =>
        rw [strings.Cut_not_found q 38 hf]
        simp [validQuery_nil]

theorem validQuery_pieces (q : GoString) : validQuery q = (pieces q).all validQuery :=
  validQuery_pieces_aux q.length q (Nat.le_refl _)

theorem url.QueryUnescape_ok (s : GoString) (h : wellEscaped s = true) :
    url.QueryUnescape s = .ok (url.unescapeBuild s) := by
  unfold url.QueryUnescape
  rw [(url.unescapeScan_none_iff s).2 h]

theorem url.QueryUnescape_error (s : GoString) (h : wellEscaped s = false) :
    ∃ e, url.QueryUnescape s = .error e := by
  unfold url.QueryUnescape
  cases hs : url.unescapeScan s with
  | none => rw [(url.unescapeScan_none_iff s).1 hs] at h; cases h
  | some e => exact ⟨_, rfl⟩

theorem url.parseStep_valid (s : url.Values × Option GoError) (p : GoString)
    (hv : validQuery p = true) :
    url.parseStep s p = match pairOf p with
      | none => s
      | some kv => (url.addPair s.1 kv, s.2) := by
  unfold validQuery at hv
  rw [Bool.and_eq_true] at hv
  obtain ⟨h59, hwe⟩ := hv
  have hc : ¬ strings.Contains p 59 = true := by
    simpa [strings.Contains] using h59
  unfold url.parseStep pairOf
  rw [if_neg hc]
  by_cases hp : p = []
  · rw [if_pos hp, if_pos hp]
  · rw [if_neg hp, if_neg hp]
    rw [strings.Cut_wellEscaped p 61 (by decide) (by decide), Bool.and_eq_true] at hwe
    rw [url.QueryUnescape_ok _ hwe.1, url.QueryUnescape_ok _ hwe.2]
    rfl

theorem url.parseStep_invalid (s : url.Values × Option GoError) (p : GoString)
    (hv : validQuery p = false) : (url.parseStep s p).2 ≠ none := by
  unfold url.parseStep
  by_cases hc : strings.Contains p 59 = true
  · rw [if_pos hc]; simp
  · rw [if_neg hc]
    have h59 : (59 : Nat) ∉ p := by simpa [strings.Contains] using hc
    have hwe : wellEscaped p = false := by
      simpa [validQuery, h59] using hv
    by_cases hp : p = []
    · subst hp; rw [wellEscaped_nil] at hwe; cases hwe
    · rw [if_neg hp]
      rw [strings.Cut_wellEscaped p 61 (by decide) (by decide)] at hwe
      cases hk : wellEscaped (strings.Cut p 61).1 with
      | false =>
        obtain ⟨e, he⟩ := url.QueryUnescape_error _ hk
        rw [he]
        by_cases hs : s.2 = none <;> simp [hs]
      | true =>
        rw [hk, Bool.true_and] at hwe
        obtain ⟨e, he⟩ := url.QueryUnescape_error _ hwe
        rw [url.QueryUnescape_ok _ hk, he]
        by_cases hs : s.2 = none <;> simp [hs]

theorem url.parseStep_err (s : url.Values × Option GoError) (p : GoString) (h : s.2 ≠ none) :
    (url.parseStep s p).2 ≠ none := by
  cases hv : validQuery p with
  | false => exact url.parseStep_invalid s p hv
  | true =>
    rw [url.parseStep_valid s p hv]
    cases pairOf p <;> exact h

theorem url.foldl_parseStep_err (ps : List GoString) (s : url.Values × Option GoError)
    (h : s.2 ≠ none) : (ps.foldl url.parseStep s).2 ≠ none := by
  induction ps generalizing s with
  | nil => exact h
  | cons p ps ih => exact ih _ (url.parseStep_err s p h)

theorem url.foldl_parseStep_invalid (ps : List GoString) (s : url.Values × Option GoError)
    (h : ps.all validQuery = false) : (ps.foldl url.parseStep s).2 ≠ none := by
  induction ps generalizing s with
  | nil => simp at h
  | cons p ps ih =>
    rw [List.foldl_cons]
    cases hv : validQuery p with
    | false => exact url.foldl_parseStep_err ps _ (url.parseStep_invalid s p hv)
    | true =>
      rw [List.all_cons, hv, Bool.true_and] at h
      exact ih _ h

theorem url.foldl_parseStep_valid (ps : List GoString) (s : url.Values × Option GoError)
    (h : ps.all validQuery = true) :
    ps.foldl url.parseStep s = ((ps.filterMap pairOf).foldl url.addPair s.1, s.2) := by
  induction ps generalizing s with
  | nil => rfl
  | cons p ps ih =>
    rw [List.all_cons, Bool.and_eq_true] at h
    rw [List.foldl_cons, ih _ h.2, url.parseStep_valid s p h.1]
    cases hp : pairOf p with
    | none => simp [List.filterMap_cons, hp]
    | some kv => simp [List.filterMap_cons, hp]

/-- The function `ParseQuery` reports no error exactly on the valid query
strings, and then its result holds the pairs of the query in order. -/
theorem url.ParseQuery_valid (q : GoString) (h : validQuery q = true) :
    url.ParseQuery q = ((queryPairs q).foldl url.addPair ∅, none) := by
  rw [url.ParseQuery_eq_foldl, url.foldl_parseStep_valid _ _ (by rw [← validQuery_pieces]; exact h)]
  rfl

theorem url.ParseQuery_invalid (q : GoString) (h : validQuery q = false) :
    (url.ParseQuery q).2 ≠ none := by
  rw [url.ParseQuery_eq_foldl]
  exact url.foldl_parseStep_invalid _ _ (by rw [← validQuery_pieces]; exact h)

theorem valuesOf_cons (p : GoString × GoString) (ps : List (GoString × GoString))
    (k : GoString) :
    valuesOf (p :: ps) k = if p.1 = k then p.2 :: valuesOf ps k else valuesOf ps k := by
  unfold valuesOf
  by_cases h : p.1 = k <;> simp [List.filter_cons, h]

theorem url.lookup_addPair (m : url.Values) (kv : GoString × GoString) (k : GoString) :
    (url.addPair m kv).lookup k
      = if kv.1 = k then some ((m.lookup k).getD [] ++ [kv.2]) else m.lookup k := by
  unfold url.addPair
  rw [lookup_insert_if]
  by_cases h : kv.1 = k
  · subst h; simp
  · simp [h]

theorem url.lookup_foldl_addPair (pairs : List (GoString × GoString)) (m : url.Values)
    (k : GoString) :
    (pairs.foldl url.addPair m).lookup k
      = if valuesOf pairs k = [] then m.lookup k
        else some ((m.lookup k).getD [] ++ valuesOf pairs k) := by
  induction pairs generalizing m with
  | nil => simp [valuesOf]
  | cons p ps ih =>
    rw [List.foldl_cons, ih, url.lookup_addPair, valuesOf_cons]
    by_cases h : p.1 = k
    · simp only [if_pos h, Option.getD_some]
      by_cases h2 : valuesOf ps k = []
      · simp [h2]
      · simp [h2]
    · simp only [if_neg h]

theorem firstValue_eq (q k : GoString) : firstValue q k = (valuesOf (queryPairs q) k).head? := by
  unfold firstValue
  generalize queryPairs q = ps
  induction ps with
  | nil => rfl
  | cons p ps ih =>
    rw [valuesOf_cons]
    by_cases h : p.1 = k
    · simp [List.find?_cons, h]
    · simp [List.find?_cons, h, ih]

/-- The result of `ParseQuery` on a valid query string, seen through `lookup`:
a key is present exactly when it occurs, with the values of its occurrences. -/
theorem url.ParseQuery_lookup (q : GoString) (h : validQuery q = true) (k : GoString) :
    (url.ParseQuery q).1.lookup k
      = if valuesOf (queryPairs q) k = [] then none else some (valuesOf (queryPairs q) k) := by
  rw [url.ParseQuery_valid q h]
  simp only
  rw [url.lookup_foldl_addPair]
  simp

/-! ## `decodeParams` -/

theorem lastVal_entries_map {β γ : Type} (m : AList (fun _ : GoString => β)) (g : β → γ)
    (init : Option γ) (k : GoString) :
    lastVal Sigma.fst (fun kv : (Sigma fun _ : GoString => β) => g kv.2) init m.entries k
      = ((m.lookup k).map g).orElse (fun _ => init) := by
  cases hl : m.lookup k with
  | none =>
    have hk : k ∉ m := AList.lookup_eq_none.1 hl
    rw [lastVal_of_not_mem]
    · rfl
    · intro x hx e
      apply hk
      rw [AList.mem_keys, AList.keys, List.keys]
      exact List.mem_map.2 ⟨x, hx, e⟩
  | some v =>
    have hmem : (Sigma.mk k v : Sigma fun _ : GoString => β) ∈ m.entries :=
      AList.mem_lookup_iff.1 hl
    obtain ⟨pre, post, hsplit⟩ := List.append_of_mem hmem
    have hnd : (m.entries.map Sigma.fst).Nodup := m.keys_nodup
    rw [hsplit] at hnd ⊢
    rw [lastVal_last Sigma.fst _ init pre post ⟨k, v⟩ k rfl]
    · rfl
    · intro y hy e
      simp only [List.map_append, List.map_cons] at hnd
      have h2 := (List.nodup_append.1 hnd).2.1
      have h3 := (List.nodup_cons.1 h2).1
      exact h3 (List.mem_map.2 ⟨y, hy, e⟩)

/-- The loop `for k, v := range values { params[k] = v[0] }` does not panic
when every value list is non-empty. -/
theorem foldlM_first_value (l : List (Sigma fun _ : GoString => List GoString)) (p0 : GoMap)
    (h : ∀ kv ∈ l, kv.2 ≠ []) :
    l.foldlM (fun (p : GoMap) kv => match kv.2 with
        | [] => none
        | v0 :: _ => some (p.insert kv.1 v0)) p0
      = some (l.foldl (fun (p : GoMap) kv => p.insert kv.1 (kv.2.headD [])) p0) := by
  induction l generalizing p0 with
  | nil => rfl
  | cons x xs ih =>
    have hx := h x (List.mem_cons_self _ _)
    rw [List.foldlM_cons, List.foldl_cons]
    obtain ⟨k, vs⟩ := x
    cases vs with
    | nil => exact absurd rfl hx
    | cons v0 vs =>
      simp only [Option.bind_eq_bind, Option.some_bind, List.headD_cons]
      exact ih _ (fun kv hkv => h kv (List.mem_cons_of_mem _ hkv))

/-- Every key of the result of `ParseQuery` has at least one value. -/
theorem url.ParseQuery_values_ne_nil (q : GoString) (h : validQuery q = true) :
    ∀ kv ∈ (url.ParseQuery q).1.entries, kv.2 ≠ [] := by
  intro kv hkv
  obtain ⟨k, vs⟩ := kv
  have hl : (url.ParseQuery q).1.lookup k = some vs := AList.mem_lookup_iff.2 hkv
  rw [url.ParseQuery_lookup q h] at hl
  by_cases hv : valuesOf (queryPairs q) k = []
  · rw [if_pos hv] at hl; cases hl
  · rw [if_neg hv] at hl
    injection hl with hl
    exact hl ▸ hv

theorem ios.SetParams_wf (i j : ios) (m : MapRef) (h : i.SetParams m = some j) (hw : i.wf) :
    j.wf := by
  obtain ⟨hs, hlen, -⟩ := ios.SetParams_frame i j m h hw
  obtain ⟨h1, ⟨a, hp, ha⟩, h3⟩ := hw
  refine ⟨?_, ⟨a, ?_, ?_⟩, ?_⟩
  · intro b hb
    rw [hs] at hb
    have := h1 b hb
    omega
  · rw [hs]; exact hp
  · omega
  · rw [hs]; exact h3

/-- The map that `decodeParams` hands to `SetParams`, for the parsed query
`values`, seen through `lookup`. -/
theorem lookup_params_of_values (values : url.Values) (k : GoString) :
    ((values.entries.foldl (fun (p : GoMap) kv => p.insert kv.1 (kv.2.headD []))
        (mapLit (paramNames.map (fun n => (n, getParamValue n values))))).lookup k)
      = match values.lookup k with
        | some vs => some (vs.headD [])
        | none => if k ∈ paramNames then some (str "") else none := by
  have h := @lookup_foldl_insert (Sigma fun _ : GoString => List GoString) GoString
    Sigma.fst (fun kv => kv.2.headD []) values.entries
    (mapLit (paramNames.map (fun n => (n, getParamValue n values)))) k
  rw [lastVal_entries_map values (fun vs => vs.headD []), lookup_mapLit _ _ paramNames_nodup] at h
  rw [show (values.entries.foldl (fun (p : GoMap) kv => p.insert kv.1 (kv.2.headD []))
        (mapLit (paramNames.map (fun n => (n, getParamValue n values))))).lookup k = _ from h]
  cases hl : values.lookup k with
  | some vs => rfl
  | none =>
    simp only [Option.map_none', getParamValue, hl]
    rfl

theorem ios.decodeParams_invalid (i : ios) (q : GoString) (hv : validQuery q = false) :
    ∃ e, i.decodeParams q = some (i, some e) := by
  have h := url.ParseQuery_invalid q hv
  unfold ios.decodeParams
  cases hp : url.ParseQuery q with
  | mk values err =>
    rw [hp] at h
    cases err with
    | none => exact absurd rfl h
    | some e => exact ⟨e, rfl⟩

theorem ios.decodeParams_valid (i : ios) (q : GoString) (hw : i.wf) (hv : validQuery q = true) :
    ∃ j, i.decodeParams q = some (j, none) ∧ j.wf ∧ j.s = i.s ∧ j.headerMap = i.headerMap ∧
      ∀ k, j.paramMap.lookup k = match firstValue q k with
        | some v => some v
        | none => if k ∈ paramNames then some (str "") else i.paramMap.lookup k := by
  have hne := url.ParseQuery_values_ne_nil q hv
  have hlk := url.ParseQuery_lookup q hv
  have hfst := firstValue_eq q
  have herr : (url.ParseQuery q).2 = none := by rw [url.ParseQuery_valid q hv]
  unfold ios.decodeParams
  cases hp : url.ParseQuery q with
  | mk values err =>
    rw [hp] at hne hlk herr
    simp only at hne hlk herr
    subst herr
    simp only
    have hlit : (mapLit [
      (str "api_version", getParamValue (str "api_version") values),
      (str "app_client_id", getParamValue (str "app_client_id") values),
      (str "app_type", getParamValue (str "app_type") values),
      (str "buildVersion", getParamValue (str "buildVersion") values),
      (str "channel", getParamValue (str "channel") values),
      (str "city_number", getParamValue (str "city_number") values),
      (str "countryCode", getParamValue (str "countryCode") values),
      (str "device_id", getParamValue (str "device_id") values),
      (str "device_model", getParamValue (str "device_model") values),
      (str "device_name", getParamValue (str "device_name") values),
      (str "device_token", getParamValue (str "device_token") values),
      (str "idfa", getParamValue (str "idfa") values),
      (str "ip", getParamValue (str "ip") values),
      (str "languageCode", getParamValue (str "languageCode") values),
      (str "latitude", getParamValue (str "latitude") values),
      (str "localeIdentifier", getParamValue (str "localeIdentifier") values),
      (str "longitude", getParamValue (str "longitude") values),
      (str "os_version", getParamValue (str "os_version") values),
      (str "seqid", getParamValue (str "seqid") values),
      (str "station_id", getParamValue (str "station_id") values),
      (str "time", getParamValue (str "time") values),
      (str "uid", getParamValue (str "uid") values)])
        = mapLit (paramNames.map (fun n => (n, getParamValue n values))) := rfl
    rw [hlit, foldlM_first_value _ _ hne]
    simp only
    generalize hfin : (values.entries.foldl (fun (p : GoMap) kv => p.insert kv.1 (kv.2.headD []))
        (mapLit (paramNames.map (fun n => (n, getParamValue n values))))) = fin
    have hfl := lookup_params_of_values values
    rw [hfin] at hfl
    obtain ⟨e1, e2, e3⟩ := ios.alloc_frame0 i fin hw
    obtain ⟨a, hpa, ha⟩ := e3.2.1
    have hj := ios.SetParams_eq _ (i.heap.alloc fin).2 a hpa ha
    have hl := fun k => ios.SetParams_lookup _ _ _ hj e3 k
    have hf := ios.SetParams_frame _ _ _ hj e3
    have hwf := ios.SetParams_wf _ _ _ hj e3
    rw [hj]
    refine ⟨_, rfl, hwf, hf.1, ?_, ?_⟩
    · rw [← e1]
      unfold ios.headerMap
      rw [hf.1]
      exact hf.2.2 _ e3.2.2
    · intro k
      rw [hl k, e2, hfst k]
      have hr : Heap.read ({ i with heap := (i.heap.alloc fin).1 } : ios).heap (i.heap.alloc fin).2
          = fin := Heap.read_alloc_new _ _
      rw [hr, hfl k, hlk k]
      by_cases hvs : valuesOf (queryPairs q) k = []
      · rw [if_pos hvs, hvs]
        simp only [List.head?_nil]
        by_cases hk : k ∈ paramNames
        · simp [hk]
        · simp [hk]
      · rw [if_neg hvs]
        cases hvv : valuesOf (queryPairs q) k with
        | nil => exact absurd hvv hvs
        | cons v vs => rfl

/-! ## `Decode` -/

theorem url.ParseQuery_ok_iff (q : GoString) : (url.ParseQuery q).2 = none ↔ validQuery q = true := by
  constructor
  · intro h
    cases hv : validQuery q with
    | true => rfl
    | false => exact absurd h (url.ParseQuery_invalid q hv)
  · intro h
    rw [url.ParseQuery_valid q h]

theorem ios.decodeHeader_wf (i : ios) (hs : List charles.HeaderEntry) (hw : i.wf) :
    (i.decodeHeader hs).1.wf ∧ (i.decodeHeader hs).1.paramMap = i.paramMap := by
  by_cases h : hs = []
  · subst h
    exact ⟨hw, rfl⟩
  · rw [ios.decodeHeader_eq i hs h]
    generalize (mapLit (headerNames.map (fun n =>
          (n, if n = str "content-type" then str "application/x-www-form-urlencoded"
            else GoMap.index (hs.foldl (fun m h => m.insert h.Name h.Value) ∅) n)))) = lit
    obtain ⟨-, e2, e3⟩ := ios.alloc_frame0 i lit hw
    obtain ⟨a, hpa, ha⟩ := hw.2.1
    refine ⟨⟨?_, e3.2.1, ?_⟩, e2⟩
    · intro b hb
      simp only [ios.SetHeaders, Heap.alloc] at hb
      injection hb with hb
      simp [ios.SetHeaders, Heap.alloc]; omega
    · simp only [ios.SetHeaders, Heap.alloc, hpa]
      intro e
      injection e with e
      omega

theorem ios.Decode_first (unmarshal : GoString → Except GoError (List charles.Session))
    (i : ios) (data : GoString) (s0 : charles.Session) (rest : List charles.Session)
    (hu : unmarshal data = .ok (s0 :: rest)) :
    i.Decode unmarshal data
      = match i.decodeHeader s0.Request.Header.Headers with
        | (j, some err) => some (j, some err)
        | (j, none) => j.decodeParams s0.Query := by
  unfold ios.Decode
  rw [hu]
  rfl

theorem perm_of_mem_iff {l1 l2 : List GoString} (h1 : l1.Nodup) (h2 : l2.Nodup)
    (h : ∀ k, k ∈ l1 ↔ k ∈ l2) : l1.length = l2.length :=
  ((List.perm_ext_iff_of_nodup h1 h2).2 h).length_eq

/-- C1: on a capture whose first record has at least one header entry and a
query string that parses, `Decode` succeeds; the key set of the resulting
header map is exactly the allow-list of 28 names; every allow-listed name
other than `content-type` is mapped to the value that the entry list gives
for that exact name, or to the empty string when no entry has that name. -/
theorem Decode_projects_headers (unmarshal : GoString → Except GoError (List charles.Session))
    (i : ios) (data : GoString) (s0 : charles.Session) (rest : List charles.Session)
    (hw : i.wf) (hu : unmarshal data = .ok (s0 :: rest))
    (hh : s0.Request.Header.Headers ≠ []) (hq : (url.ParseQuery s0.Query).2 = none) :
    ∃ j, i.Decode unmarshal data = some (j, none) ∧
      (∀ k, k ∈ j.headerMap.keys ↔ k ∈ headerNames) ∧
      j.headerMap.keys.length = 28 ∧
      (∀ k ∈ headerNames, k ≠ str "content-type" →
        j.headerMap.lookup k = some ((lastVal charles.HeaderEntry.Name charles.HeaderEntry.Value
          none s0.Request.Header.Headers k).getD (str ""))) ∧
      (∀ k ∈ headerNames, (∀ h ∈ s0.Request.Header.Headers, h.Name ≠ k) →
        k ≠ str "content-type" → j.headerMap.lookup k = some (str "")) := by
  have hv := (url.ParseQuery_ok_iff _).1 hq
  have hd := ios.decodeHeader_eq i _ hh
  have hlk := ios.decodeHeader_lookup i _ hh
  obtain ⟨hw1, -⟩ := ios.decodeHeader_wf i s0.Request.Header.Headers hw
  obtain ⟨j, hj, -, -, hjh, -⟩ := ios.decodeParams_valid _ s0.Query hw1 hv
  have hD : i.Decode unmarshal data = some (j, none) := by
    rw [ios.Decode_first unmarshal i data s0 rest hu, ← hj, hd]
  have hkeys : ∀ k, k ∈ j.headerMap.keys ↔ k ∈ headerNames := by
    intro k
    rw [mem_keys_iff_lookup, hjh, hlk k]
    by_cases hk : k ∈ headerNames <;> simp [hk]
  have hval : ∀ k ∈ headerNames, k ≠ str "content-type" →
      j.headerMap.lookup k = some ((lastVal charles.HeaderEntry.Name charles.HeaderEntry.Value
        none s0.Request.Header.Headers k).getD (str "")) := by
    intro k hk hct
    rw [hjh, hlk k, if_pos hk, if_neg hct]
    rfl
  refine ⟨j, hD, hkeys, ?_, hval, ?_⟩
  · rw [perm_of_mem_iff j.headerMap.keys_nodup headerNames_nodup hkeys]
    rfl
  · intro k hk hno hct
    rw [hval k hk hct, lastVal_of_not_mem _ _ _ _ _ hno]
    rfl

/-- C5: on an input that parses to zero records `Decode` returns an error and
the store, with its header map and its params map, is exactly what it was. -/
theorem Decode_zero_records (unmarshal : GoString → Except GoError (List charles.Session))
    (i : ios) (data : GoString) (hu : unmarshal data = .ok []) :
    i.Decode unmarshal data = some (i, some GoError.invalidFile) := by
  unfold ios.Decode
  rw [hu]
  rfl

/-- C6: on a capture whose first record has no header entry `Decode` returns an
error whatever the query string is, and the store, with its header map and its
params map, is exactly what it was: `decodeParams` does not run. -/
theorem Decode_no_headers (unmarshal : GoString → Except GoError (List charles.Session))
    (i : ios) (data : GoString) (s0 : charles.Session) (rest : List charles.Session)
    (hu : unmarshal data = .ok (s0 :: rest)) (hh : s0.Request.Header.Headers = []) :
    i.Decode unmarshal data = some (i, some GoError.invalidFile) := by
  rw [ios.Decode_first unmarshal i data s0 rest hu, hh]
  rfl

/-- C7: `decodeParams` returns an error exactly when the query string is not
valid (it has a `;`, or a `%` that is not followed by two hexadecimal digits);
when it returns an error the store is exactly what it was, and on a valid
query string it returns without an error. -/
theorem decodeParams_error_iff (i : ios) (q : GoString) :
    ((∃ j e, i.decodeParams q = some (j, some e)) ↔ validQuery q = false) ∧
    (∀ j e, i.decodeParams q = some (j, some e) → j = i) ∧
    (i.wf → validQuery q = true → ∃ j, i.decodeParams q = some (j, none)) := by
  have hsucc : validQuery q = true → ∀ j e, i.decodeParams q ≠ some (j, some e) := by
    intro hv j e h
    have hp := url.ParseQuery_valid q hv
    unfold ios.decodeParams at h
    rw [hp] at h
    simp only at h
    split at h
    · cases h
    · simp only [Option.map_eq_some'] at h
      obtain ⟨a, -, ha⟩ := h
      cases ha
  refine ⟨⟨?_, ?_⟩, ?_, ?_⟩
  · rintro ⟨j, e, h⟩
    cases hv : validQuery q with
    | false => rfl
    | true => exact absurd h (hsucc hv j e)
  · intro hv
    obtain ⟨e, he⟩ := ios.decodeParams_invalid i q hv
    exact ⟨i, e, he⟩
  · intro j e h
    cases hv : validQuery q with
    | true => exact absurd h (hsucc hv j e)
    | false =>
      obtain ⟨e2, he⟩ := ios.decodeParams_invalid i q hv
      rw [he] at h
      injection h with h
      injection h with h1 h2
      exact h1.symm
  · intro hw hv
    obtain ⟨j, hj, -⟩ := ios.decodeParams_valid i q hw hv
    exact ⟨j, hj⟩

theorem firstValue_isSome (q k : GoString) :
    (firstValue q k).isSome ↔ k ∈ (queryPairs q).map Prod.fst := by
  unfold firstValue
  rw [Option.isSome_map', List.find?_isSome]
  constructor
  · rintro ⟨x, hx, hk⟩
    exact List.mem_map.2 ⟨x, hx, by simpa using hk⟩
  · intro h
    obtain ⟨x, hx, hk⟩ := List.mem_map.1 h
    exact ⟨x, hx, by simpa using hk⟩

theorem firstValue_of_split (q k v : GoString) (pre post : List (GoString × GoString))
    (h : queryPairs q = pre ++ (k, v) :: post) (hpre : ∀ p ∈ pre, p.1 ≠ k) :
    firstValue q k = some v := by
  unfold firstValue
  rw [h, List.find?_append]
  have : pre.find? (fun p => decide (p.1 = k)) = none := by
    rw [List.find?_eq_none]
    intro p hp
    simpa using hpre p hp
  rw [this]
  simp [List.find?_cons]

/-- The witness of C1: the sample capture, decoded into a new store. -/
theorem Decode_projects_headers_witness :
    (NewIosDevice []).wf ∧ sampleUnmarshal (str "sample") = .ok [sampleRecord, sampleBareRecord] ∧
    sampleRecord.Request.Header.Headers ≠ [] ∧ (url.ParseQuery sampleRecord.Query).2 = none ∧
    ∃ j, (NewIosDevice []).Decode sampleUnmarshal (str "sample") = some (j, none) ∧
      (∀ k, k ∈ j.headerMap.keys ↔ k ∈ headerNames) ∧
      j.headerMap.keys.length = 28 ∧
      (∀ k ∈ headerNames, k ≠ str "content-type" →
        j.headerMap.lookup k = some ((lastVal charles.HeaderEntry.Name charles.HeaderEntry.Value
          none sampleRecord.Request.Header.Headers k).getD (str ""))) ∧
      (∀ k ∈ headerNames, (∀ h ∈ sampleRecord.Request.Header.Headers, h.Name ≠ k) →
        k ≠ str "content-type" → j.headerMap.lookup k = some (str "")) :=
  ⟨NewIosDevice_wf _, rfl, by decide, by decide,
    Decode_projects_headers sampleUnmarshal (NewIosDevice []) (str "sample") sampleRecord
      [sampleBareRecord] (NewIosDevice_wf _) rfl (by decide) (by decide)⟩

/-- C3: on a newly constructed store `decodeParams` succeeds for every valid
query string; the key set of the params map is the allow-list of 22 names
together with the keys that occur in the query; a key that occurs carries its
parsed value (that of its first occurrence) and an allow-listed key that does
not occur carries the empty string. -/
theorem decodeParams_new_store (heap : Heap) (q : GoString) (hv : validQuery q = true) :
    ∃ j, (NewIosDevice heap).decodeParams q = some (j, none) ∧
      (∀ k, k ∈ j.paramMap.keys ↔ k ∈ paramNames ∨ k ∈ (queryPairs q).map Prod.fst) ∧
      paramNames.length = 22 ∧ paramNames.Nodup ∧
      (∀ k v, firstValue q k = some v → j.paramMap.lookup k = some v) ∧
      (∀ k ∈ paramNames, k ∉ (queryPairs q).map Prod.fst →
        j.paramMap.lookup k = some (str "")) := by
  obtain ⟨j, hj, -, -, -, hl⟩ := ios.decodeParams_valid _ q (NewIosDevice_wf heap) hv
  rw [(NewIosDevice_maps heap).2] at hl
  refine ⟨j, hj, ?_, rfl, paramNames_nodup, ?_, ?_⟩
  · intro k
    rw [mem_keys_iff_lookup, hl k, ← firstValue_isSome]
    cases firstValue q k with
    | some v => simp
    | none => by_cases hk : k ∈ paramNames <;> simp [hk]
  · intro k v hk
    rw [hl k, hk]
  · intro k hk hno
    rw [← firstValue_isSome] at hno
    rw [hl k]
    cases hf : firstValue q k with
    | some v => simp [hf] at hno
    | none => simp [hk]

/-- The witness of C3: `uid=42&foo=bar` gives `uid="42"`, `foo="bar"`, the
empty string for the other 21 allow-listed keys, and no further key. -/
theorem decodeParams_new_store_witness :
    validQuery (str "uid=42&foo=bar") = true ∧
    ∃ j, (NewIosDevice []).decodeParams (str "uid=42&foo=bar") = some (j, none) ∧
      j.paramMap.lookup (str "uid") = some (str "42") ∧
      j.paramMap.lookup (str "foo") = some (str "bar") ∧
      (∀ k ∈ paramNames, k ≠ str "uid" → j.paramMap.lookup k = some (str "")) ∧
      (∀ k, k ∈ j.paramMap.keys ↔ k ∈ paramNames ∨ k = str "foo") := by
  have hp : queryPairs (str "uid=42&foo=bar") = [(str "uid", str "42"), (str "foo", str "bar")] := by
    decide
  obtain ⟨j, hj, hkeys, -, -, hval, hdef⟩ :=
    decodeParams_new_store [] (str "uid=42&foo=bar") (by decide)
  refine ⟨by decide, j, hj, hval _ _ (by decide), hval _ _ (by decide), ?_, ?_⟩
  · intro k hk hne
    apply hdef k hk
    rw [hp]
    intro hmem
    simp only [List.map_cons, List.map_nil, List.mem_cons, List.mem_singleton] at hmem
    rcases hmem with h | h | h
    · exact hne h
    · subst h; revert hk; decide
    · cases h
  · intro k
    rw [hkeys k, hp]
    simp only [List.map_cons, List.map_nil, List.mem_cons, List.mem_singleton]
    constructor
    · rintro (h | h | h | h)
      · exact Or.inl h
      · subst h; exact Or.inl (by decide)
      · exact Or.inr h
      · cases h
    · rintro (h | h)
      · exact Or.inl h
      · exact Or.inr (Or.inr (Or.inl h))

/-- C4: for a valid query string, the params map after `decodeParams` holds for
every key that occurs in the string, allow-listed or not, the value of its
first occurrence. -/
theorem decodeParams_first_value_wins (i : ios) (q : GoString) (hw : i.wf)
    (hv : validQuery q = true) :
    ∃ j, i.decodeParams q = some (j, none) ∧
      ∀ (k v : GoString) (pre post : List (GoString × GoString)),
        queryPairs q = pre ++ (k, v) :: post → (∀ p ∈ pre, p.1 ≠ k) →
        j.paramMap.lookup k = some v := by
  obtain ⟨j, hj, -, -, -, hl⟩ := ios.decodeParams_valid i q hw hv
  refine ⟨j, hj, ?_⟩
  intro k v pre post hsplit hpre
  rw [hl k, firstValue_of_split q k v pre post hsplit hpre]

/-- The witness of C4: `uid=1&uid=2` yields `uid="1"`, and the same for the key
`foo`, which is not allow-listed, in `foo=a&uid=1&foo=b`. -/
theorem decodeParams_first_value_wins_witness :
    (NewIosDevice []).wf ∧ validQuery (str "uid=1&uid=2") = true ∧
    validQuery (str "foo=a&uid=1&foo=b") = true ∧
    (∃ j, (NewIosDevice []).decodeParams (str "uid=1&uid=2") = some (j, none) ∧
      j.paramMap.lookup (str "uid") = some (str "1")) ∧
    (∃ j, (NewIosDevice []).decodeParams (str "foo=a&uid=1&foo=b") = some (j, none) ∧
      j.paramMap.lookup (str "foo") = some (str "a")) := by
  refine ⟨NewIosDevice_wf _, by decide, by decide, ?_, ?_⟩
  · obtain ⟨j, hj, h⟩ :=
      decodeParams_first_value_wins (NewIosDevice []) (str "uid=1&uid=2") (NewIosDevice_wf _)
        (by decide)
    exact ⟨j, hj, h (str "uid") (str "1") [] [(str "uid", str "2")] (by decide)
      (by intro p hp; cases hp)⟩
  · obtain ⟨j, hj, h⟩ :=
      decodeParams_first_value_wins (NewIosDevice []) (str "foo=a&uid=1&foo=b")
        (NewIosDevice_wf _) (by decide)
    exact ⟨j, hj, h (str "foo") (str "a") [] [(str "uid", str "1"), (str "foo", str "b")]
      (by decide) (by intro p hp; cases hp)⟩

/-- The witness of C5: the empty array, decoded into a new store. -/
theorem Decode_zero_records_witness :
    sampleUnmarshal (str "[]") = .ok [] ∧
    (NewIosDevice []).Decode sampleUnmarshal (str "[]")
      = some (NewIosDevice [], some GoError.invalidFile) :=
  ⟨rfl, Decode_zero_records sampleUnmarshal (NewIosDevice []) (str "[]") rfl⟩

/-- The witness of C6: a record without header entries and with a valid query. -/
theorem Decode_no_headers_witness :
    sampleUnmarshal (str "[\x7b\x7d]") = .ok [sampleBareRecord] ∧
    sampleBareRecord.Request.Header.Headers = [] ∧
    (NewIosDevice []).Decode sampleUnmarshal (str "[\x7b\x7d]")
      = some (NewIosDevice [], some GoError.invalidFile) :=
  ⟨rfl, rfl, Decode_no_headers sampleUnmarshal (NewIosDevice []) (str "[\x7b\x7d]")
    sampleBareRecord [] rfl rfl⟩

/-- The witness of C7: `a=%zz` is rejected, also after the well-formed pair
`b=1`, and the store is what it was; `a=%7a` is accepted. -/
theorem decodeParams_error_iff_witness :
    (NewIosDevice []).wf ∧ validQuery (str "a=%zz") = false ∧
    validQuery (str "b=1&a=%zz") = false ∧ validQuery (str "a=%7a") = true ∧
    (∃ j e, (NewIosDevice []).decodeParams (str "a=%zz") = some (j, some e)) ∧
    (∃ j e, (NewIosDevice []).decodeParams (str "b=1&a=%zz") = some (j, some e)) ∧
    (∀ j e, (NewIosDevice []).decodeParams (str "b=1&a=%zz") = some (j, some e) →
      j = NewIosDevice []) ∧
    (∃ j, (NewIosDevice []).decodeParams (str "a=%7a") = some (j, none)) :=
  ⟨NewIosDevice_wf _, by decide, by decide, by decide,
    (decodeParams_error_iff (NewIosDevice []) (str "a=%zz")).1.2 (by decide),
    (decodeParams_error_iff (NewIosDevice []) (str "b=1&a=%zz")).1.2 (by decide),
    (decodeParams_error_iff (NewIosDevice []) (str "b=1&a=%zz")).2.1,
    (decodeParams_error_iff (NewIosDevice []) (str "a=%7a")).2.2 (NewIosDevice_wf _) (by decide)⟩

/-! ## Further properties of `Decode` -/

/-- C11: `Decode` consults only the first record: on two inputs that parse to
non-empty record sequences whose first records have the same header entries
and the same query string, it returns the same result and leaves the same
store, whatever the remaining records are. -/
theorem Decode_first_record_only (unmarshal : GoString → Except GoError (List charles.Session))
    (i : ios) (data1 data2 : GoString) (s1 s2 : charles.Session)
    (rest1 rest2 : List charles.Session)
    (hu1 : unmarshal data1 = .ok (s1 :: rest1)) (hu2 : unmarshal data2 = .ok (s2 :: rest2))
    (hh : s1.Request.Header.Headers = s2.Request.Header.Headers) (hq : s1.Query = s2.Query) :
    i.Decode unmarshal data1 = i.Decode unmarshal data2 := by
  rw [ios.Decode_first unmarshal i data1 s1 rest1 hu1,
    ios.Decode_first unmarshal i data2 s2 rest2 hu2, hh, hq]

/-- The witness of C11: the sample record alone, and followed by another record. -/
theorem Decode_first_record_only_witness :
    sampleUnmarshalTails (str "one") = .ok [sampleRecord] ∧
    sampleUnmarshalTails (str "two") = .ok [sampleRecord, sampleBareRecord] ∧
    sampleStore.Decode sampleUnmarshalTails (str "one")
      = sampleStore.Decode sampleUnmarshalTails (str "two") :=
  ⟨rfl, rfl, Decode_first_record_only sampleUnmarshalTails sampleStore (str "one") (str "two")
    sampleRecord sampleRecord [] [sampleBareRecord] rfl rfl rfl rfl⟩

/-- C16: when an allow-listed name other than `content-type` occurs in several
entries of the list, `decodeHeader` stores for it the value of the last such
entry in list order. -/
theorem decodeHeader_last_duplicate_wins (i : ios) (pre post : List charles.HeaderEntry)
    (h : charles.HeaderEntry) (hk : h.Name ∈ headerNames) (hct : h.Name ≠ str "content-type")
    (hlast : ∀ h2 ∈ post, h2.Name ≠ h.Name) :
    (i.decodeHeader (pre ++ h :: post)).2 = none ∧
    (i.decodeHeader (pre ++ h :: post)).1.headerMap.lookup h.Name = some h.Value := by
  have hne : pre ++ h :: post ≠ [] := by simp
  refine ⟨by rw [ios.decodeHeader_eq i _ hne], ?_⟩
  rw [ios.decodeHeader_lookup i _ hne, if_pos hk, if_neg hct,
    lastVal_last charles.HeaderEntry.Name charles.HeaderEntry.Value none pre post h h.Name rfl
      hlast]
  rfl

/-- The witness of C16: `cookie` occurs twice in the sample record, with the
values `a` and `c`, and a `Cookie` entry in another case lies between them. -/
theorem decodeHeader_last_duplicate_wins_witness :
    sampleRecord.Request.Header.Headers
      = [⟨str "cookie", str "a"⟩, ⟨str "Cookie", str "B"⟩] ++ ⟨str "cookie", str "c"⟩ ::
        [⟨str "content-type", str "application/json"⟩, ⟨str "x-other", str "1"⟩] ∧
    (sampleStore.decodeHeader sampleRecord.Request.Header.Headers).1.headerMap.lookup
      (str "cookie") = some (str "c") :=
  ⟨rfl, (decodeHeader_last_duplicate_wins sampleStore
    [⟨str "cookie", str "a"⟩, ⟨str "Cookie", str "B"⟩]
    [⟨str "content-type", str "application/json"⟩, ⟨str "x-other", str "1"⟩]
    ⟨str "cookie", str "c"⟩ (by decide) (by decide) (by decide)).2⟩

/-- C18: `Decode` is not atomic when the query string fails to parse: on a
capture whose first record has a non-empty header list and such a query it
returns an error and the params map is what it was, but the header map is
already the allow-list projection of the record's headers. -/
theorem Decode_not_atomic_on_query_error
    (unmarshal : GoString → Except GoError (List charles.Session)) (i : ios) (data : GoString)
    (s0 : charles.Session) (rest : List charles.Session) (hw : i.wf)
    (hu : unmarshal data = .ok (s0 :: rest)) (hh : s0.Request.Header.Headers ≠ [])
    (hq : (url.ParseQuery s0.Query).2 ≠ none) :
    ∃ j e, i.Decode unmarshal data = some (j, some e) ∧
      j.paramMap = i.paramMap ∧
      (∀ k, j.headerMap.lookup k
        = if k ∈ headerNames then
            some (if k = str "content-type" then str "application/x-www-form-urlencoded"
              else (lastVal charles.HeaderEntry.Name charles.HeaderEntry.Value none
                s0.Request.Header.Headers k).getD (str ""))
          else none) ∧
      (∀ k, k ∈ j.headerMap.keys ↔ k ∈ headerNames) := by
  have hv : validQuery s0.Query = false := by
    cases hvq : validQuery s0.Query with
    | false => rfl
    | true => exact absurd ((url.ParseQuery_ok_iff _).2 hvq) hq
  obtain ⟨e, he⟩ := ios.decodeParams_invalid (i.decodeHeader s0.Request.Header.Headers).1
    s0.Query hv
  have hd := ios.decodeHeader_eq i _ hh
  have hlk := ios.decodeHeader_lookup i _ hh
  have hD : i.Decode unmarshal data
      = some ((i.decodeHeader s0.Request.Header.Headers).1, some e) := by
    rw [ios.Decode_first unmarshal i data s0 rest hu, ← he, hd]
  refine ⟨_, e, hD, (ios.decodeHeader_wf i _ hw).2, hlk, ?_⟩
  intro k
  rw [mem_keys_iff_lookup, hlk k]
  by_cases hk : k ∈ headerNames <;> simp [hk]

/-- The witness of C18: the sample store holds `cookie=c` and `uid=1`; after
the failed `Decode` the header map says `cookie=d` and the params map still
says `uid=1`. -/
theorem Decode_not_atomic_on_query_error_witness :
    sampleStore.wf ∧ sampleBadQueryRecord.Request.Header.Headers ≠ [] ∧
    (url.ParseQuery sampleBadQueryRecord.Query).2 ≠ none ∧
    sampleStore.headerMap.lookup (str "cookie") = some (str "c") ∧
    ∃ j e, sampleStore.Decode sampleUnmarshalBad (str "bad") = some (j, some e) ∧
      j.headerMap.lookup (str "cookie") = some (str "d") ∧
      j.paramMap.lookup (str "uid") = some (str "1") := by
  obtain ⟨j, e, hj, hp, hl, -⟩ := Decode_not_atomic_on_query_error sampleUnmarshalBad
    sampleStore (str "bad") sampleBadQueryRecord [] (by decide) rfl (by decide) (by decide)
  refine ⟨by decide, by decide, by decide, by decide, j, e, hj, ?_, ?_⟩
  · rw [hl]; decide
  · rw [hp]; decide

/-- C19: after `decodeParams(q)` on a valid query string every allow-listed
name that does not occur in `q` maps to the empty string, whatever the store
held for it before, whereas a key that is neither allow-listed nor in `q`
keeps its previous value (or stays absent). -/
theorem decodeParams_erases_omitted (i : ios) (q : GoString) (hw : i.wf)
    (hv : validQuery q = true) :
    ∃ j, i.decodeParams q = some (j, none) ∧
      (∀ k ∈ paramNames, k ∉ (queryPairs q).map Prod.fst →
        j.paramMap.lookup k = some (str "")) ∧
      (∀ k, k ∉ paramNames → k ∉ (queryPairs q).map Prod.fst →
        j.paramMap.lookup k = i.paramMap.lookup k) := by
  obtain ⟨j, hj, -, -, -, hl⟩ := ios.decodeParams_valid i q hw hv
  refine ⟨j, hj, ?_, ?_⟩
  · intro k hk hno
    rw [← firstValue_isSome] at hno
    rw [hl k]
    cases hf : firstValue q k with
    | some v => simp [hf] at hno
    | none => simp [hk]
  · intro k hk hno
    rw [← firstValue_isSome] at hno
    rw [hl k]
    cases hf : firstValue q k with
    | some v => simp [hf] at hno
    | none => simp [hk]

/-- The witness of C19: decoding `uid=42&x=y` and then `foo=bar` into a new
store leaves `uid=""`, while `x`, which is not allow-listed, keeps `y`. -/
theorem decodeParams_erases_omitted_witness :
    validQuery (str "uid=42&x=y") = true ∧ validQuery (str "foo=bar") = true ∧
    ∃ j1, (NewIosDevice []).decodeParams (str "uid=42&x=y") = some (j1, none) ∧
      j1.paramMap.lookup (str "uid") = some (str "42") ∧
      j1.paramMap.lookup (str "x") = some (str "y") ∧
      ∃ j2, j1.decodeParams (str "foo=bar") = some (j2, none) ∧
        j2.paramMap.lookup (str "uid") = some (str "") ∧
        j2.paramMap.lookup (str "x") = some (str "y") := by
  obtain ⟨j1, hj1, hw1, -, -, hl1⟩ :=
    ios.decodeParams_valid (NewIosDevice []) (str "uid=42&x=y") (NewIosDevice_wf _) (by decide)
  have hu : j1.paramMap.lookup (str "uid") = some (str "42") := by
    rw [hl1]; decide
  have hx : j1.paramMap.lookup (str "x") = some (str "y") := by
    rw [hl1]; decide
  obtain ⟨j2, hj2, herase, hkeep⟩ := decodeParams_erases_omitted j1 (str "foo=bar") hw1 (by decide)
  refine ⟨by decide, by decide, j1, hj1, hu, hx, j2, hj2, herase _ (by decide) (by decide), ?_⟩
  rw [hkeep _ (by decide) (by decide), hx]

/-! ## Absence of panics, and what the operations keep -/

theorem url.parseStep_values_ne_nil (s : url.Values × Option GoError) (p : GoString)
    (h : ∀ k vs, s.1.lookup k = some vs → vs ≠ []) :
    ∀ k vs, (url.parseStep s p).1.lookup k = some vs → vs ≠ [] := by
  unfold url.parseStep
  by_cases h1 : strings.Contains p 59 = true
  · rw [if_pos h1]; exact h
  · rw [if_neg h1]
    by_cases h2 : p = []
    · rw [if_pos h2]; exact h
    · rw [if_neg h2]
      cases url.QueryUnescape (strings.Cut p 61).1 with
      | error e => exact h
      | ok key =>
        cases url.QueryUnescape (strings.Cut p 61).2.1 with
        | error e => exact h
        | ok value =>
          intro k vs hk
          simp only [lookup_insert_if] at hk
          by_cases hkk : key = k
          · rw [if_pos hkk] at hk
            injection hk with hk
            rw [← hk]
            simp
          · rw [if_neg hkk] at hk
            exact h k vs hk

theorem url.foldl_parseStep_values_ne_nil (ps : List GoString) (s : url.Values × Option GoError)
    (h : ∀ k vs, s.1.lookup k = some vs → vs ≠ []) :
    ∀ k vs, (ps.foldl url.parseStep s).1.lookup k = some vs → vs ≠ [] := by
  induction ps generalizing s with
  | nil => exact h
  | cons p ps ih => exact ih _ (url.parseStep_values_ne_nil s p h)

/-- Every key in the result of `ParseQuery` has a non-empty value list, also
when the query string has errors. -/
theorem url.ParseQuery_entries_ne_nil (q : GoString) :
    ∀ kv ∈ (url.ParseQuery q).1.entries, kv.2 ≠ [] := by
  intro kv hkv
  obtain ⟨k, vs⟩ := kv
  have hl : (url.ParseQuery q).1.lookup k = some vs := AList.mem_lookup_iff.2 hkv
  rw [url.ParseQuery_eq_foldl] at hl
  exact url.foldl_parseStep_values_ne_nil _ (∅, none) (by intro k vs h; simp at h) k vs hl

theorem ios.decodeParams_total (i : ios) (q : GoString) (hp : i.heap.allocated i.s.params) :
    ∃ j e, i.decodeParams q = some (j, e) := by
  have hne := url.ParseQuery_entries_ne_nil q
  unfold ios.decodeParams
  cases hpq : url.ParseQuery q with
  | mk values err =>
    rw [hpq] at hne
    cases err with
    | some e => exact ⟨i, some e, rfl⟩
    | none =>
      simp only
      rw [foldlM_first_value _ _ hne]
      simp only
      obtain ⟨a, hpa, ha⟩ := hp
      generalize (values.entries.foldl (fun (p : GoMap) kv => p.insert kv.1 (kv.2.headD [])) _)
        = fin
      have hj := ios.SetParams_eq { i with heap := (i.heap.alloc fin).1 } (i.heap.alloc fin).2 a
        hpa (by simp [Heap.alloc]; omega)
      rw [hj]
      exact ⟨_, none, rfl⟩

theorem ios.Decode_total (unmarshal : GoString → Except GoError (List charles.Session))
    (i : ios) (data : GoString) (hp : i.heap.allocated i.s.params) :
    ∃ j e, i.Decode unmarshal data = some (j, e) := by
  cases hu : unmarshal data with
  | error err => exact ⟨i, some err, by unfold ios.Decode; rw [hu]⟩
  | ok s =>
    cases s with
    | nil => exact ⟨i, some .invalidFile, by unfold ios.Decode; rw [hu]; rfl⟩
    | cons s0 rest =>
      rw [ios.Decode_first unmarshal i data s0 rest hu]
      by_cases hh : s0.Request.Header.Headers = []
      · rw [hh]
        exact ⟨i, some .invalidFile, rfl⟩
      · rw [ios.decodeHeader_eq i _ hh]
        simp only
        apply ios.decodeParams_total
        obtain ⟨a, hpa, ha⟩ := hp
        exact ⟨a, hpa, by simp [ios.SetHeaders, Heap.alloc]; omega⟩

/-- C17: `Decode` never aborts: on a store whose params map was made (as
`NewIosDevice` does) it returns, for every input, a new store with success or
with an error value.  The index `s[0]` is not reached on an empty record
sequence, which gives the error of the length check, and the index `v[0]` of
the loop of `decodeParams` is in range, because every key in the result of
`ParseQuery` has a non-empty value list. -/
theorem Decode_never_aborts (unmarshal : GoString → Except GoError (List charles.Session))
    (i : ios) (data : GoString) (hp : i.heap.allocated i.s.params) :
    (∃ j e, i.Decode unmarshal data = some (j, e)) ∧
    (unmarshal data = .ok [] → i.Decode unmarshal data = some (i, some GoError.invalidFile)) ∧
    (∀ q, ∃ j e, i.decodeParams q = some (j, e)) ∧
    (∀ q, ∀ kv ∈ (url.ParseQuery q).1.entries, kv.2 ≠ []) := by
  refine ⟨ios.Decode_total unmarshal i data hp, ?_, fun q => ios.decodeParams_total i q hp,
    url.ParseQuery_entries_ne_nil⟩
  intro hu
  unfold ios.Decode
  rw [hu]
  rfl

/-- The witness of C17: the sample store and the three kinds of input of the
sample decoder. -/
theorem Decode_never_aborts_witness :
    sampleStore.heap.allocated sampleStore.s.params ∧
    (∃ j e, sampleStore.Decode sampleUnmarshal (str "[]") = some (j, e)) ∧
    (∃ j e, sampleStore.Decode sampleUnmarshal (str "[\x7b\x7d]") = some (j, e)) ∧
    (∃ j e, sampleStore.Decode sampleUnmarshal (str "sample") = some (j, e)) ∧
    (∃ j e, sampleStore.Decode sampleUnmarshalBad (str "bad") = some (j, e)) :=
  ⟨by decide,
    (Decode_never_aborts sampleUnmarshal sampleStore (str "[]") (by decide)).1,
    (Decode_never_aborts sampleUnmarshal sampleStore (str "[\x7b\x7d]") (by decide)).1,
    (Decode_never_aborts sampleUnmarshal sampleStore (str "sample") (by decide)).1,
    (Decode_never_aborts sampleUnmarshalBad sampleStore (str "bad") (by decide)).1⟩

theorem ios.decodeParams_keeps (i : ios) (q : GoString) (hw : i.wf) :
    ∃ j e, i.decodeParams q = some (j, e) ∧ j.wf ∧ j.headerMap = i.headerMap ∧
      ∀ k, k ∈ i.paramMap.keys → k ∈ j.paramMap.keys := by
  cases hv : validQuery q with
  | false =>
    obtain ⟨e, he⟩ := ios.decodeParams_invalid i q hv
    exact ⟨i, some e, he, hw, rfl, fun _ h => h⟩
  | true =>
    obtain ⟨j, hj, hwj, -, hh, hl⟩ := ios.decodeParams_valid i q hw hv
    refine ⟨j, none, hj, hwj, hh, ?_⟩
    intro k hk
    rw [mem_keys_iff_lookup] at hk ⊢
    rw [hl k]
    cases firstValue q k with
    | some v => rfl
    | none =>
      by_cases hkn : k ∈ paramNames
      · simp [hkn]
      · simpa [hkn] using hk

theorem ios.Decode_keeps (unmarshal : GoString → Except GoError (List charles.Session))
    (i : ios) (data : GoString) (hw : i.wf) :
    ∃ j e, i.Decode unmarshal data = some (j, e) ∧ j.wf ∧
      ∀ k, k ∈ i.paramMap.keys → k ∈ j.paramMap.keys := by
  cases hu : unmarshal data with
  | error err => exact ⟨i, some err, by unfold ios.Decode; rw [hu], hw, fun _ h => h⟩
  | ok s =>
    cases s with
    | nil =>
      exact ⟨i, some .invalidFile, by unfold ios.Decode; rw [hu]; rfl, hw, fun _ h => h⟩
    | cons s0 rest =>
      rw [ios.Decode_first unmarshal i data s0 rest hu]
      by_cases hh : s0.Request.Header.Headers = []
      · rw [hh]
        exact ⟨i, some .invalidFile, rfl, hw, fun _ h => h⟩
      · obtain ⟨hw1, hp1⟩ := ios.decodeHeader_wf i s0.Request.Header.Headers hw
        obtain ⟨j, e, hj, hwj, -, hk⟩ :=
          ios.decodeParams_keeps (i.decodeHeader s0.Request.Header.Headers).1 s0.Query hw1
        rw [hp1] at hk
        have hd := ios.decodeHeader_eq i _ hh
        refine ⟨j, e, ?_, hwj, hk⟩
        rw [← hj, hd]

/-- C13: no operation deletes a parameter: on a well-formed store each of
`Decode`, `decodeParams`, `decodeHeader`, `SetParams`, `SetHeaders`, `Headers`
and `QueryParams` returns, with success or with an error, a store whose params
map still has every key it had before; and after a successful `decodeParams`
a key that is neither allow-listed nor in the query keeps its previous value. -/
theorem no_operation_deletes_a_parameter
    (unmarshal : GoString → Except GoError (List charles.Session)) (i : ios) (hw : i.wf)
    (data q : GoString) (hs : List charles.HeaderEntry) (m : MapRef) :
    (∃ j e, i.Decode unmarshal data = some (j, e) ∧
      ∀ k, k ∈ i.paramMap.keys → k ∈ j.paramMap.keys) ∧
    (∃ j e, i.decodeParams q = some (j, e) ∧
      ∀ k, k ∈ i.paramMap.keys → k ∈ j.paramMap.keys) ∧
    (∀ k, k ∈ i.paramMap.keys → k ∈ (i.decodeHeader hs).1.paramMap.keys) ∧
    (∃ j, i.SetParams m = some j ∧ ∀ k, k ∈ i.paramMap.keys → k ∈ j.paramMap.keys) ∧
    (∀ k, k ∈ i.paramMap.keys → k ∈ (i.SetHeaders m).paramMap.keys) ∧
    (∀ k, k ∈ i.paramMap.keys → k ∈ i.Headers.1.paramMap.keys) ∧
    (∀ k, k ∈ i.paramMap.keys → k ∈ i.QueryParams.1.paramMap.keys) ∧
    (∀ j, i.decodeParams q = some (j, none) → ∀ k, k ∉ paramNames →
      k ∉ (queryPairs q).map Prod.fst → j.paramMap.lookup k = i.paramMap.lookup k) := by
  refine ⟨?_, ?_, ?_, ?_, ?_, ?_, ?_, ?_⟩
  · obtain ⟨j, e, hj, -, hk⟩ := ios.Decode_keeps unmarshal i data hw
    exact ⟨j, e, hj, hk⟩
  · obtain ⟨j, e, hj, -, -, hk⟩ := ios.decodeParams_keeps i q hw
    exact ⟨j, e, hj, hk⟩
  · intro k hk
    rw [(ios.decodeHeader_wf i hs hw).2]
    exact hk
  · obtain ⟨a, hp, ha⟩ := hw.2.1
    refine ⟨_, ios.SetParams_eq i m a hp ha, ?_⟩
    intro k hk
    rw [mem_keys_iff_lookup] at hk ⊢
    rw [ios.SetParams_lookup i _ m (ios.SetParams_eq i m a hp ha) hw k]
    cases (i.heap.read m).lookup k with
    | some v => rfl
    | none => exact hk
  · intro k hk
    exact hk
  · intro k hk
    have h := (ios.alloc_frame0 i ((i.heap.read i.s.headers).entries.foldl
      (fun (cp : GoMap) kv => cp.insert kv.1 kv.2) ∅) hw).2.1
    unfold ios.Headers
    rw [h]
    exact hk
  · intro k hk
    have h := (ios.alloc_frame0 i ((i.heap.read i.s.params).entries.foldl
      (fun (cp : GoMap) kv => cp.insert kv.1 kv.2) ∅) hw).2.1
    unfold ios.QueryParams
    rw [h]
    exact hk
  · intro j hj k hk hno
    cases hv : validQuery q with
    | false =>
      obtain ⟨e, he⟩ := ios.decodeParams_invalid i q hv
      rw [he] at hj
      injection hj with hj
      injection hj with h1 h2
      cases h2
    | true =>
      obtain ⟨j2, hj2, -, -, -, hl⟩ := ios.decodeParams_valid i q hw hv
      rw [hj2] at hj
      injection hj with hj
      injection hj with h1 h2
      subst h1
      rw [← firstValue_isSome] at hno
      rw [hl k]
      cases hf : firstValue q k with
      | some v => simp [hf] at hno
      | none => simp [hk]

/-- The witness of C13: the sample store holds `x=y` in its params map; `x` is
still a key after each operation, and after `decodeParams` of `uid=7` it still
carries `y`. -/
theorem no_operation_deletes_a_parameter_witness :
    sampleStore.wf ∧ str "x" ∈ sampleStore.paramMap.keys ∧
    (∃ j e, sampleStore.Decode sampleUnmarshal (str "sample") = some (j, e) ∧
      str "x" ∈ j.paramMap.keys) ∧
    (∃ j e, sampleStore.decodeParams (str "uid=7") = some (j, e) ∧
      str "x" ∈ j.paramMap.keys) ∧
    (∃ j, sampleStore.SetParams (some 2) = some j ∧ str "x" ∈ j.paramMap.keys) ∧
    str "x" ∈ (sampleStore.SetHeaders (some 2)).paramMap.keys ∧
    (∀ j, sampleStore.decodeParams (str "uid=7") = some (j, none) →
      j.paramMap.lookup (str "x") = some (str "y")) := by
  have h := no_operation_deletes_a_parameter sampleUnmarshal sampleStore (by decide)
    (str "sample") (str "uid=7") [] (some 2)
  obtain ⟨⟨j1, e1, h1, k1⟩, ⟨j2, e2, h2, k2⟩, -, ⟨j4, h4, k4⟩, h5, -, -, h8⟩ := h
  have hx : str "x" ∈ sampleStore.paramMap.keys := by decide
  refine ⟨by decide, hx, ⟨j1, e1, h1, k1 _ hx⟩, ⟨j2, e2, h2, k2 _ hx⟩, ⟨j4, h4, k4 _ hx⟩,
    h5 _ hx, ?_⟩
  intro j hj
  rw [h8 j hj (str "x") (by decide) (by decide)]
  decide

/-- A successful `Decode` has read a first record with a non-empty header list
and a valid query string. -/
theorem ios.Decode_success_inv (unmarshal : GoString → Except GoError (List charles.Session))
    (i j : ios) (data : GoString) (h : i.Decode unmarshal data = some (j, none)) :
    ∃ s0 rest, unmarshal data = .ok (s0 :: rest) ∧ s0.Request.Header.Headers ≠ [] ∧
      validQuery s0.Query = true ∧
      (i.decodeHeader s0.Request.Header.Headers).1.decodeParams s0.Query = some (j, none) := by
  cases hu : unmarshal data with
  | error err =>
    unfold ios.Decode at h
    rw [hu] at h
    cases h
  | ok s =>
    cases s with
    | nil =>
      unfold ios.Decode at h
      rw [hu] at h
      cases h
    | cons s0 rest =>
      rw [ios.Decode_first unmarshal i data s0 rest hu] at h
      by_cases hh : s0.Request.Header.Headers = []
      · rw [hh] at h
        cases h
      · have hd := ios.decodeHeader_eq i _ hh
        have h2 : (i.decodeHeader s0.Request.Header.Headers).1.decodeParams s0.Query
            = some (j, none) := by
          rw [hd] at h ⊢
          exact h
        refine ⟨s0, rest, rfl, hh, ?_, h2⟩
        cases hv : validQuery s0.Query with
        | true => rfl
        | false =>
          obtain ⟨e, he⟩ := ios.decodeParams_invalid
            (i.decodeHeader s0.Request.Header.Headers).1 s0.Query hv
          rw [he] at h2
          injection h2 with h2
          injection h2 with h3 h4
          cases h4

/-- C12: `Decode` is idempotently repeatable: when it succeeds on an input, a
second `Decode` of the same input succeeds too, and the header map and the
params map are then exactly what they were after the first call. -/
theorem Decode_idempotent (unmarshal : GoString → Except GoError (List charles.Session))
    (i j : ios) (data : GoString) (hw : i.wf) (h : i.Decode unmarshal data = some (j, none)) :
    ∃ j2, j.Decode unmarshal data = some (j2, none) ∧
      (∀ k, j2.headerMap.lookup k = j.headerMap.lookup k) ∧
      (∀ k, j2.paramMap.lookup k = j.paramMap.lookup k) ∧
      (∀ k, k ∈ j2.headerMap.keys ↔ k ∈ j.headerMap.keys) ∧
      (∀ k, k ∈ j2.paramMap.keys ↔ k ∈ j.paramMap.keys) := by
  obtain ⟨s0, rest, hu, hh, hv, hdp⟩ := ios.Decode_success_inv unmarshal i j data h
  -- the first call
  obtain ⟨hw1, -⟩ := ios.decodeHeader_wf i s0.Request.Header.Headers hw
  obtain ⟨j', hj', hwj, -, hhd1, hl1⟩ := ios.decodeParams_valid _ s0.Query hw1 hv
  rw [hdp] at hj'
  injection hj' with hj'
  injection hj' with hjj
  subst hjj
  -- the second call
  obtain ⟨hw2, hp2⟩ := ios.decodeHeader_wf j s0.Request.Header.Headers hwj
  obtain ⟨j2, hj2, -, -, hhd2, hl2⟩ := ios.decodeParams_valid _ s0.Query hw2 hv
  have hD : j.Decode unmarshal data = some (j2, none) := by
    rw [ios.Decode_first unmarshal j data s0 rest hu, ← hj2, ios.decodeHeader_eq j _ hh]
  have hH : ∀ k, j2.headerMap.lookup k = j.headerMap.lookup k := by
    intro k
    rw [hhd2, hhd1, ios.decodeHeader_lookup j _ hh, ios.decodeHeader_lookup i _ hh]
  have hP : ∀ k, j2.paramMap.lookup k = j.paramMap.lookup k := by
    intro k
    rw [hl2 k, hp2, hl1 k]
    cases firstValue s0.Query k with
    | some v => rfl
    | none =>
      by_cases hk : k ∈ paramNames <;> simp [hk]
  refine ⟨j2, hD, hH, hP, ?_, ?_⟩
  · intro k
    rw [mem_keys_iff_lookup, mem_keys_iff_lookup, hH]
  · intro k
    rw [mem_keys_iff_lookup, mem_keys_iff_lookup, hP]

/-- The witness of C12: the sample capture, decoded twice into the sample store. -/
theorem Decode_idempotent_witness :
    sampleStore.wf ∧
    ∃ j, sampleStore.Decode sampleUnmarshal (str "sample") = some (j, none) ∧
      ∃ j2, j.Decode sampleUnmarshal (str "sample") = some (j2, none) ∧
        (∀ k, j2.headerMap.lookup k = j.headerMap.lookup k) ∧
        (∀ k, j2.paramMap.lookup k = j.paramMap.lookup k) := by
  obtain ⟨hw1, -⟩ := ios.decodeHeader_wf sampleStore sampleRecord.Request.Header.Headers
    (by decide)
  obtain ⟨j, hj, -⟩ := ios.decodeParams_valid _ sampleRecord.Query hw1 (by decide)
  have hD : sampleStore.Decode sampleUnmarshal (str "sample") = some (j, none) := by
    rw [ios.Decode_first sampleUnmarshal sampleStore (str "sample") sampleRecord
      [sampleBareRecord] rfl, ← hj, ios.decodeHeader_eq sampleStore _ (by decide)]
  obtain ⟨j2, h2, hH, hP, -, -⟩ :=
    Decode_idempotent sampleUnmarshal sampleStore j (str "sample") (by decide) hD
  exact ⟨by decide, j, hD, j2, h2, hH, hP⟩

/-! ## The two passes of `decodeParams` -/

/-- The method `decodeParams` is the seeding, then the loop over the parsed
query, then `SetParams`. -/
theorem ios.decodeParams_stages (i : ios) (q : GoString) :
    i.decodeParams q
      = match url.ParseQuery q with
        | (_, some err) => some (i, some err)
        | (values, none) =>
          match overwritePass values (seedParams values) with
          | none => none
          | some params =>
            (SetParams { i with heap := (i.heap.alloc params).1 } (i.heap.alloc params).2).map
              (fun i => (i, none)) := rfl

theorem seedParams_lookup (values : url.Values) (k : GoString) :
    (seedParams values).lookup k
      = if k ∈ paramNames then some (getParamValue k values) else none := by
  have h : seedParams values = mapLit (paramNames.map (fun n => (n, getParamValue n values))) :=
    rfl
  rw [h, lookup_mapLit _ _ paramNames_nodup]

/-- The loop over the parsed query leaves every allow-listed key with the
value that the seeding gave it. -/
theorem overwritePass_keeps_seed (q : GoString) :
    ∃ p, overwritePass (url.ParseQuery q).1 (seedParams (url.ParseQuery q).1) = some p ∧
      ∀ k ∈ paramNames, p.lookup k = (seedParams (url.ParseQuery q).1).lookup k := by
  have hne := url.ParseQuery_entries_ne_nil q
  generalize (url.ParseQuery q).1 = values at hne
  refine ⟨_, foldlM_first_value _ _ hne, ?_⟩
  intro k hk
  have h : seedParams values = mapLit (paramNames.map (fun n => (n, getParamValue n values))) :=
    rfl
  rw [seedParams_lookup, if_pos hk, h, lookup_params_of_values]
  unfold getParamValue
  cases hl : values.lookup k with
  | none => simp [hk]
  | some vs =>
    cases vs with
    | nil => rfl
    | cons v vs => rfl

/-- C15, as amended: the second pass of `decodeParams` never changes an
allow-listed value: for every query string the loop `params[k] = v[0]` runs
through, and every allow-listed key has after it the value that the seeding by
`getParamValue` gave it (the loop writes `v[0]`, which is what was seeded). -/
theorem second_pass_keeps_seeded_values (q : GoString) :
    ∃ p, overwritePass (url.ParseQuery q).1 (seedParams (url.ParseQuery q).1) = some p ∧
      (∀ k ∈ paramNames, p.lookup k = (seedParams (url.ParseQuery q).1).lookup k) ∧
      (∀ k ∈ paramNames,
        p.lookup k = some (getParamValue k (url.ParseQuery q).1)) := by
  obtain ⟨p, hp, hk⟩ := overwritePass_keeps_seed q
  refine ⟨p, hp, hk, ?_⟩
  intro k hkn
  rw [hk k hkn, seedParams_lookup, if_pos hkn]

/-- C15, as stated, fails: there is no query string for which the second pass
changes the value that the seeding gave to an allow-listed key. -/
theorem second_pass_changes_nothing_seeded :
    ¬ ∃ (q k : GoString) (p : GoMap), k ∈ paramNames ∧
      overwritePass (url.ParseQuery q).1 (seedParams (url.ParseQuery q).1) = some p ∧
      p.lookup k ≠ (seedParams (url.ParseQuery q).1).lookup k := by
  rintro ⟨q, k, p, hk, hp, hne⟩
  obtain ⟨p2, hp2, h⟩ := overwritePass_keeps_seed q
  rw [hp] at hp2
  injection hp2 with hp2
  subst hp2
  exact hne (h k hk)
